import Mathlib

/-!
Shallow embedding of the pathFinderC core: the grid (`matrixWorld.c`, v1.0
variant), the bounded path container (`path.c`, v1.0 variant), the sorted
coordinate vector (`startingPointVector.c`), the random utility
(`utilities.h`) and the DFS search engine (the 3-argument `DFS_findPath`
translation unit that `main.c` links against), together with proofs about
them.

Modelling conventions:
- machine integers are `Nat`/`Int` with explicit `% 2 ^ w` where overflow is
  reachable; `uint16_t` coordinate components live in `[0, 65535]`;
- `exit(EXIT_FAILURE)` sites are represented by `Except`/`CRes` error values
  tagged with the abort site kind;
- `rand()` is an injected list of draws; running out of modelled draws (or
  of the recursion-depth fuel of the backtracking model) is the distinguished
  `stuck` outcome, which never corresponds to a C return value.
-/

/-- 2-D coordinate with `uint16_t` row/col fields (`utilities.h`, `Cords`). -/
structure Cords where
  row : Nat
  col : Nat
  deriving DecidableEq, Repr

/-- `UINT16_MAX`, used as the sentinel coordinate component. -/
def UINT16_MAX : Nat := 65535

/-- 2 ^ 32, the modulus of `uint32_t` arithmetic. -/
def U32 : Nat := 4294967296

/-- The distinct `exit(EXIT_FAILURE)` sites reachable from the embedded code. -/
inductive FatalKind where
  /-- `MATRIXWORLD_internal_checkSizeBoundaries` failed. -/
  | outOfBounds
  /-- grid below `MINIMUM_MATRIX_SIZE` (4) in `MATRIXWORLD_matrixInitialization`. -/
  | minMatrixSize
  /-- more cells to blank than the matrix holds (`MATRIXWORLD_matrixBlanking`). -/
  | blankTooMany
  /-- `PATH_initializePath` with `pathSize == 0`. -/
  | pathSizeZero
  /-- `PATH_initializePath` beyond the 75 % size constraint. -/
  | pathSizeBound
  /-- `PATH_addCoordinates` on a full path. -/
  | pathFull
  /-- `STPOINT_removePoint` on an empty vector. -/
  | removeFromEmpty
  deriving DecidableEq, Repr

deriving instance DecidableEq for Except

/-! ## Grid (`matrixWorld.c`, v1.0 variant with `MINIMUM_MATRIX_SIZE`) -/

/-- `struct WorldMatrix`: dimensions, `uint32_t` cell counters, total size and
the flat row-major boolean field (index `row * cols + col`). -/
structure WorldMatrix where
  rows : Nat
  cols : Nat
  noOfUnblockedCells : Nat
  noOfBlockedCells : Nat
  worldSize : Nat
  world : List Bool
  deriving DecidableEq, Repr

/-- `uint32_t` increment. -/
def u32succ (n : Nat) : Nat := (n + 1) % U32

/-- `uint32_t` decrement (wraps below zero). -/
def u32pred (n : Nat) : Nat := (n + (U32 - 1)) % U32

/-- `uint32_t` subtraction `a - b` (wraps below zero). -/
def u32sub (a b : Nat) : Nat := (a + (U32 - b % U32)) % U32

/-- `MATRIXWORLD_matrixInitialization`: rejects grids smaller than
`MINIMUM_MATRIX_SIZE = 4` cells, otherwise every cell starts unblocked and the
counters are `blocked = 0`, `unblocked = totalCells` (cast to `uint32_t`).
Allocation is modelled as succeeding. -/
def MATRIXWORLD_matrixInitialization (rows cols : Nat) :
    Except FatalKind WorldMatrix :=
  let noOfMatrixBoolElements := rows * cols
  if noOfMatrixBoolElements < 4 then
    .error .minMatrixSize
  else
    .ok { rows := rows
          cols := cols
          noOfUnblockedCells := noOfMatrixBoolElements % U32
          noOfBlockedCells := 0
          worldSize := noOfMatrixBoolElements
          world := List.replicate noOfMatrixBoolElements false }

/-- `MATRIXWORLD_setCell`: bounds-checked cell update with counter
bookkeeping; setting a cell to its current state only logs a diagnostic. -/
def MATRIXWORLD_setCell (m : WorldMatrix) (row col : Nat) (state : Bool) :
    Except FatalKind WorldMatrix :=
  if row ≥ m.rows ∨ col ≥ m.cols then .error .outOfBounds
  else
    let oneDimMappedIndex := row * m.cols + col
    if m.world.getD oneDimMappedIndex false ≠ state then
      .ok { m with
            world := m.world.set oneDimMappedIndex state
            noOfBlockedCells :=
              if state then u32succ m.noOfBlockedCells
              else u32pred m.noOfBlockedCells
            noOfUnblockedCells :=
              if state then u32pred m.noOfUnblockedCells
              else u32succ m.noOfUnblockedCells }
    else
      .ok m

/-- The `for` loop of `MATRIXWORLD_matrixBlanking`: blank each listed cell via
`MATRIXWORLD_setCell`. -/
def MATRIXWORLD_blankLoop (m : WorldMatrix) :
    List Cords → Except FatalKind WorldMatrix
  | [] => .ok m
  | c :: rest =>
    match MATRIXWORLD_setCell m c.row c.col true with
    | .error k => .error k
    | .ok m2 => MATRIXWORLD_blankLoop m2 rest

/-- `MATRIXWORLD_matrixBlanking`: after the `setCell` loop (which already does
the counter bookkeeping) the counters are overwritten again:
`blocked := n` and `unblocked := unblocked − n`. -/
def MATRIXWORLD_matrixBlanking (m : WorldMatrix) (coords : List Cords) :
    Except FatalKind WorldMatrix :=
  if coords.length > m.worldSize then .error .blankTooMany
  else
    match MATRIXWORLD_blankLoop m coords with
    | .error k => .error k
    | .ok m2 =>
      .ok { m2 with
            noOfBlockedCells := coords.length % U32
            noOfUnblockedCells := u32sub m2.noOfUnblockedCells coords.length }

/-- `MATRIXWORLD_clearMatrix`: unblock everything unless already empty. -/
def MATRIXWORLD_clearMatrix (m : WorldMatrix) : WorldMatrix :=
  if m.noOfBlockedCells ≠ 0 then
    { m with
      world := List.replicate m.worldSize false
      noOfBlockedCells := 0
      noOfUnblockedCells := m.worldSize % U32 }
  else m

/-- `MATRIXWORLD_isBlocked`: bounds-checked read of a cell. -/
def MATRIXWORLD_isBlocked (m : WorldMatrix) (row col : Nat) :
    Except FatalKind Bool :=
  if row ≥ m.rows ∨ col ≥ m.cols then .error .outOfBounds
  else .ok (m.world.getD (row * m.cols + col) false)

/-- `MATRIXWORLD_getRowSize`. -/
def MATRIXWORLD_getRowSize (m : WorldMatrix) : Nat := m.rows

/-- `MATRIXWORLD_getColSize`. -/
def MATRIXWORLD_getColSize (m : WorldMatrix) : Nat := m.cols

/-- `MATRIXWORLD_getNoOfUnblockedCells`: the `uint32_t` counter returned
through a `uint16_t` return type, i.e. reduced modulo 2 ^ 16. -/
def MATRIXWORLD_getNoOfUnblockedCells (m : WorldMatrix) : Nat :=
  m.noOfUnblockedCells % 65536

/-- `MATRIXWORLD_getNoOfBlockedCells`: likewise truncated to 16 bits. -/
def MATRIXWORLD_getNoOfBlockedCells (m : WorldMatrix) : Nat :=
  m.noOfBlockedCells % 65536

/-- `MATRIXWORLD_getSize`. -/
def MATRIXWORLD_getSize (m : WorldMatrix) : Nat := m.worldSize

/-! ## Path buffer (`path.c`, the variant the program links: the one
defining `PATH_getByteSize`) -/

/-- `struct Path`: capacity and stored coordinates (current length is the
list length). -/
structure PathBuf where
  pathSize : Nat
  cords : List Cords
  deriving DecidableEq, Repr

/-- `PATH_initializePath`: only `pathSize == 0` aborts; the
`pathSize > matrixSize * 0.75` branch merely prints an error message and
construction proceeds (no state effect, so the branch is not modelled). -/
def PATH_initializePath (pathSize : Nat) (m : WorldMatrix) :
    Except FatalKind PathBuf :=
  if pathSize = 0 then .error .pathSizeZero
  else .ok { pathSize := pathSize, cords := [] }

/-- `PATH_addCoordinates`: append, fatal when full. -/
def PATH_addCoordinates (p : PathBuf) (row col : Nat) : Except FatalKind PathBuf :=
  if p.cords.length < p.pathSize then
    .ok { p with cords := p.cords ++ [⟨row, col⟩] }
  else .error .pathFull

/-- `PATH_isEmpty`. -/
def PATH_isEmpty (p : PathBuf) : Bool := p.cords.length = 0

/-- `PATH_getLength`. -/
def PATH_getLength (p : PathBuf) : Nat := p.cords.length

/-- `PATH_getLastCoordinates`: sentinel `(UINT16_MAX, UINT16_MAX)` on an
empty path. -/
def PATH_getLastCoordinates (p : PathBuf) : Cords :=
  match p.cords.getLast? with
  | none => ⟨UINT16_MAX, UINT16_MAX⟩
  | some c => c

/-- `PATH_popCoordinates`: sentinel on empty, otherwise removes and returns
the last coordinate (the zeroing of the freed slot is not observable in the
list model). -/
def PATH_popCoordinates (p : PathBuf) : Cords × PathBuf :=
  match p.cords.getLast? with
  | none => (⟨UINT16_MAX, UINT16_MAX⟩, p)
  | some c => (c, { p with cords := p.cords.dropLast })

/-- `PATH_clearPath`. -/
def PATH_clearPath (p : PathBuf) : PathBuf := { p with cords := [] }

/-- `|a - b|` on `uint16_t` values, as computed by the branches in
`PATH_isContiguous`. -/
def natDist (a b : Nat) : Nat := if a > b then a - b else b - a

/-- The scan loop of `PATH_isContiguous`: every consecutive pair must be at
Manhattan distance exactly 1. -/
def contiguousAux : List Cords → Bool
  | [] => true
  | [_] => true
  | a :: b :: rest =>
    (natDist a.row b.row + natDist a.col b.col == 1) && contiguousAux (b :: rest)

/-- `PATH_isContiguous`: length 0 or 1 is contiguous by definition. -/
def PATH_isContiguous (p : PathBuf) : Bool := contiguousAux p.cords

/-! ## Sorted coordinate vector (`startingPointVector.c`) -/

/-- `struct StartingPointVector`: capacity plus the sorted points array. -/
structure StartingPointVector where
  capacity : Nat
  points : List Cords
  deriving DecidableEq, Repr

/-- `STPOINT_internal_compareCords`: order by row, then by column. -/
def STPOINT_internal_compareCords (a b : Cords) : Int :=
  if a.row < b.row then -1
  else if a.row > b.row then 1
  else if a.col < b.col then -1
  else if a.col > b.col then 1
  else 0

/-- `STPOINT_createVector`: `NULL` result (modelled as `none`) when the grid
size is zero; allocation is modelled as succeeding. -/
def STPOINT_createVector (m : WorldMatrix) : Option StartingPointVector :=
  if MATRIXWORLD_getSize m = 0 then none
  else some { capacity := MATRIXWORLD_getSize m, points := [] }

/-- The binary-search loop of `STPOINT_addPoint` (`int32_t` indices): `none`
when the point is already present, otherwise `some lowerIdx`, the insertion
index.  Out-of-range reads (never reached through the real call sites) yield
the default coordinate `(0, 0)`.  The loop is modelled with a structural
fuel argument whose exhaustion falls back to the loop-exit value; the range
shrinks every iteration, so any fuel above the initial range length is
enough (`addSearch_spec` is proved under exactly that bound, and call sites
pass `length + 1`). -/
def STPOINT_addSearch (pts : List Cords) (x : Cords) :
    Nat → Int → Int → Option Nat
  | 0, lo, _ => some lo.toNat
  | fuel + 1, lo, hi =>
    if lo ≤ hi then
      let mid := lo + (hi - lo) / 2
      let cmp := STPOINT_internal_compareCords (pts.getD mid.toNat ⟨0, 0⟩) x
      if cmp = 0 then none
      else if cmp > 0 then STPOINT_addSearch pts x fuel lo (mid - 1)
      else STPOINT_addSearch pts x fuel (mid + 1) hi
    else some lo.toNat

/-- `STPOINT_addPoint`: silent no-op when full or already present, otherwise
sorted insertion at the index found by the binary search. -/
def STPOINT_addPoint (v : StartingPointVector) (point : Cords) :
    StartingPointVector :=
  if v.points.length ≥ v.capacity then v
  else if v.points.length = 0 then { v with points := [point] }
  else
    match STPOINT_addSearch v.points point (v.points.length + 1) 0 ((v.points.length : Int) - 1) with
    | none => v
    | some i => { v with points := v.points.take i ++ point :: v.points.drop i }

/-- Model of libc `bsearch` over the points array: the standard halving
search (its behaviour is only specified on sorted arrays, which is how the
code calls it).  Returns the index of a matching element. -/
def STPOINT_bsearch (pts : List Cords) (x : Cords) :
    Nat → Int → Int → Option Nat
  | 0, _, _ => none
  | fuel + 1, lo, hi =>
    if lo ≤ hi then
      let mid := lo + (hi - lo) / 2
      let cmp := STPOINT_internal_compareCords x (pts.getD mid.toNat ⟨0, 0⟩)
      if cmp = 0 then some mid.toNat
      else if cmp < 0 then STPOINT_bsearch pts x fuel lo (mid - 1)
      else STPOINT_bsearch pts x fuel (mid + 1) hi
    else none

/-- `STPOINT_containsPoint`. -/
def STPOINT_containsPoint (v : StartingPointVector) (point : Cords) : Bool :=
  if v.points.length = 0 then false
  else (STPOINT_bsearch v.points point (v.points.length + 1) 0 ((v.points.length : Int) - 1)).isSome

/-- `STPOINT_removePoint`.  Note: the entry guard is the one of
`STPOINT_addPoint`, so a FULL vector (`size ≥ capacity`) makes removal a
silent no-op, and a (non-full) empty vector is a fatal error. -/
def STPOINT_removePoint (v : StartingPointVector) (point : Cords) :
    Except FatalKind StartingPointVector :=
  if v.points.length ≥ v.capacity then .ok v
  else if v.points.length = 0 then .error .removeFromEmpty
  else
    match STPOINT_bsearch v.points point (v.points.length + 1) 0 ((v.points.length : Int) - 1) with
    | none => .ok v
    | some i =>
      .ok { v with points := v.points.take i ++ v.points.drop (i + 1) }

/-- `STPOINT_cleanVector`. -/
def STPOINT_cleanVector (v : StartingPointVector) : StartingPointVector :=
  { v with points := [] }

/-- `STPOINT_getSize`. -/
def STPOINT_getSize (v : StartingPointVector) : Nat := v.points.length

/-- `NULL`-tolerant wrapper: `STPOINT_addPoint` returns early on `NULL`. -/
def STPOINT_addPointO : Option StartingPointVector → Cords →
    Option StartingPointVector
  | none, _ => none
  | some v, p => some (STPOINT_addPoint v p)

/-- `NULL`-tolerant wrapper: `STPOINT_containsPoint` is false on `NULL`. -/
def STPOINT_containsPointO : Option StartingPointVector → Cords → Bool
  | none, _ => false
  | some v, p => STPOINT_containsPoint v p

/-- `NULL`-tolerant wrapper: `STPOINT_cleanVector` is a no-op on `NULL`. -/
def STPOINT_cleanVectorO :
    Option StartingPointVector → Option StartingPointVector
  | none => none
  | some v => some (STPOINT_cleanVector v)

/-! ## Random utility (`utilities.h`) -/

/-- glibc `RAND_MAX`. -/
def RAND_MAX : Nat := 2147483647

/-- The `do { } while` rejection loop of `UTILITY_generateRandomNumber`:
draws until a value below `validRange` appears; `none` when the modelled
draw list is exhausted. -/
def UTILITY_randLoop (validRange : Nat) : List Nat → Option (Nat × List Nat)
  | [] => none
  | d :: rest =>
    if d ≥ validRange then UTILITY_randLoop validRange rest
    else some (d, rest)

/-- `UTILITY_generateRandomNumber`: `upperBound == 0` returns `UINT16_MAX`
immediately (no draw, no modulo); otherwise modulo-bias-corrected rejection
sampling. -/
def UTILITY_generateRandomNumber (upperBound : Nat) (draws : List Nat) :
    Option (Nat × List Nat) :=
  if upperBound = 0 then some (UINT16_MAX, draws)
  else
    match UTILITY_randLoop (RAND_MAX - RAND_MAX % upperBound) draws with
    | none => none
    | some (d, rest) => some (d % upperBound, rest)

/-- The `directions` table of `utilities.h`, in source order. -/
def directions : List (Int × Int) := [(0, 1), (0, -1), (1, 0), (-1, 0)]

/-- Conversion of an in-range C `int` value to `int16_t` (wraps modulo 2 ^ 16;
gcc-defined behaviour for the narrowing conversion). -/
def toInt16 (n : Int) : Int := (n + 32768) % 65536 - 32768

/-! ## DFS search engine (`DFS_findPath` translation unit in
`cli_handling.c`'s related sources; the 3-argument variant used by `main.c`) -/

/-- Outcome of an embedded routine: fatal abort, exhaustion of the modelled
fuel/draws, or a return value. -/
inductive CRes (α : Type) where
  | fatal (k : FatalKind)
  | stuck
  | ret (a : α)
  deriving DecidableEq, Repr

/-- State threaded through `DFS_internal_backtracking`: the path under
construction, the per-attempt visited vector (an `Option`, since the C code
passes a possibly-`NULL` pointer) and the number of volatile reads of
`*path_is_found_p` made so far. -/
structure BTState where
  path : PathBuf
  visited : Option StartingPointVector
  flagIdx : Nat
  deriving DecidableEq, Repr

/-- The candidate-coordinate computation of `DFS_internal_backtracking`:
`int16_t temp = coord + delta` followed by the guarded conversion back to
`uint16_t` (negative values become `UINT16_MAX`). -/
def DFS_newCoord (coord : Nat) (delta : Int) : Nat :=
  if 0 ≤ toInt16 ((coord : Int) + delta) then (toInt16 ((coord : Int) + delta)).toNat
  else UINT16_MAX

/-- The four-direction `for` loop of `DFS_internal_backtracking`.  `rec` is
the recursive call at the next depth; `cur` is `currentPosition`, read once
before the loop.  Note the bounds tests compare the row against
`MATRIXWORLD_getColSize` and the column against `MATRIXWORLD_getRowSize`,
exactly as in the source. -/
def DFS_btDirs (m : WorldMatrix) (rec : BTState → CRes (Bool × BTState)) :
    List (Int × Int) → Cords → BTState → CRes (Bool × BTState)
  | [], _, st => .ret (false, st)
  | d :: ds, cur, st =>
    let newRow := DFS_newCoord cur.row d.1
    let newCol := DFS_newCoord cur.col d.2
    let newPoint : Cords := ⟨newRow, newCol⟩
    if newRow < MATRIXWORLD_getColSize m ∧ newCol < MATRIXWORLD_getRowSize m then
      match MATRIXWORLD_isBlocked m newRow newCol with
      | .error k => .fatal k
      | .ok blocked =>
        if blocked then DFS_btDirs m rec ds cur st
        else if STPOINT_containsPointO st.visited newPoint then
          DFS_btDirs m rec ds cur st
        else
          let visited2 := STPOINT_addPointO st.visited newPoint
          match PATH_addCoordinates st.path newRow newCol with
          | .error k => .fatal k
          | .ok path2 =>
            match rec { path := path2, visited := visited2, flagIdx := st.flagIdx } with
            | .fatal k => .fatal k
            | .stuck => .stuck
            | .ret (true, st2) => .ret (true, st2)
            | .ret (false, st2) =>
              DFS_btDirs m rec ds cur
                { st2 with path := (PATH_popCoordinates st2.path).2 }
    else DFS_btDirs m rec ds cur st

/-- `DFS_internal_backtracking`: base case on reaching the target length,
then the cooperative-cancellation check (one volatile flag read when the
flag pointer is not `NULL`), then the four-direction loop.  `fuel` caps the
modelled recursion depth. -/
def DFS_internal_backtracking (m : WorldMatrix) (pathLength : Nat)
    (flag : Option (Nat → Bool)) : Nat → BTState → CRes (Bool × BTState)
  | 0, _ => .stuck
  | fuel + 1, st =>
    if PATH_getLength st.path = pathLength then .ret (true, st)
    else
      match flag with
      | some f =>
        if f st.flagIdx then .ret (false, { st with flagIdx := st.flagIdx + 1 })
        else
          let st2 : BTState := { st with flagIdx := st.flagIdx + 1 }
          DFS_btDirs m (fun s => DFS_internal_backtracking m pathLength flag fuel s)
            directions (PATH_getLastCoordinates st2.path) st2
      | none =>
        DFS_btDirs m (fun s => DFS_internal_backtracking m pathLength flag fuel s)
          directions (PATH_getLastCoordinates st.path) st

/-- Result of one `findPath` engine run. -/
inductive FindResult where
  | found (p : PathBuf)
  | notFound
  | fatal (k : FatalKind)
  | stuck
  deriving DecidableEq, Repr

/-- The restart loop of `DFS_internal_findPathSingleThread`.  The starting
point is drawn as `row := rand(noOfRows)`, `col := rand(noOfCols)` where
`noOfRows` was loaded from `MATRIXWORLD_getColSize` and `noOfCols` from
`MATRIXWORLD_getRowSize`, exactly as in the source (row draw modelled
first).  The backtracking fuel `pathLength + 1` covers the real recursion
depth, which is bounded by the path capacity. -/
def DFS_findLoop (m : WorldMatrix) (pathLength : Nat) :
    Nat → Option StartingPointVector → Option StartingPointVector →
    PathBuf → List Nat → FindResult
  | 0, _, _, _, _ => .notFound
  | n + 1, used, visited, path, draws =>
    let visited := STPOINT_cleanVectorO visited
    let path := PATH_clearPath path
    match UTILITY_generateRandomNumber (MATRIXWORLD_getColSize m) draws with
    | none => .stuck
    | some (r, draws) =>
      match UTILITY_generateRandomNumber (MATRIXWORLD_getRowSize m) draws with
      | none => .stuck
      | some (c, draws) =>
        let startingPoint : Cords := ⟨r, c⟩
        if STPOINT_containsPointO used startingPoint then
          DFS_findLoop m pathLength n used visited path draws
        else
          match MATRIXWORLD_isBlocked m startingPoint.row startingPoint.col with
          | .error k => .fatal k
          | .ok true => DFS_findLoop m pathLength n used visited path draws
          | .ok false =>
            let used := STPOINT_addPointO used startingPoint
            let visited := STPOINT_addPointO visited startingPoint
            match PATH_addCoordinates path startingPoint.row startingPoint.col with
            | .error k => .fatal k
            | .ok path =>
              match DFS_internal_backtracking m pathLength none (pathLength + 1)
                  ⟨path, visited, 0⟩ with
              | .fatal k => .fatal k
              | .stuck => .stuck
              | .ret (true, st) => .found st.path
              | .ret (false, st) =>
                DFS_findLoop m pathLength n used st.visited st.path draws

/-- `DFS_internal_findPathSingleThread`: allocate the two vectors and the
path, then run the restart loop `MATRIXWORLD_getNoOfUnblockedCells` times. -/
def DFS_internal_findPathSingleThread (m : WorldMatrix) (pathLength : Nat)
    (draws : List Nat) : FindResult :=
  let noOfUnblockedElements := MATRIXWORLD_getNoOfUnblockedCells m
  let usedStartingPoints := STPOINT_createVector m
  let visitedPoints := STPOINT_createVector m
  match PATH_initializePath pathLength m with
  | .error k => .fatal k
  | .ok foundPath =>
    DFS_findLoop m pathLength noOfUnblockedElements usedStartingPoints
      visitedPoints foundPath draws

/-- Instrumented copy of `DFS_findLoop` that additionally logs, in order,
every starting point from which a backtracking attempt was actually started
(the ghost log does not influence control flow; see
`DFS_findLoopLog_fst`). -/
def DFS_findLoopLog (m : WorldMatrix) (pathLength : Nat) :
    Nat → Option StartingPointVector → Option StartingPointVector →
    PathBuf → List Nat → List Cords → FindResult × List Cords
  | 0, _, _, _, _, log => (.notFound, log)
  | n + 1, used, visited, path, draws, log =>
    let visited := STPOINT_cleanVectorO visited
    let path := PATH_clearPath path
    match UTILITY_generateRandomNumber (MATRIXWORLD_getColSize m) draws with
    | none => (.stuck, log)
    | some (r, draws) =>
      match UTILITY_generateRandomNumber (MATRIXWORLD_getRowSize m) draws with
      | none => (.stuck, log)
      | some (c, draws) =>
        let startingPoint : Cords := ⟨r, c⟩
        if STPOINT_containsPointO used startingPoint then
          DFS_findLoopLog m pathLength n used visited path draws log
        else
          match MATRIXWORLD_isBlocked m startingPoint.row startingPoint.col with
          | .error k => (.fatal k, log)
          | .ok true => DFS_findLoopLog m pathLength n used visited path draws log
          | .ok false =>
            let used := STPOINT_addPointO used startingPoint
            let visited := STPOINT_addPointO visited startingPoint
            match PATH_addCoordinates path startingPoint.row startingPoint.col with
            | .error k => (.fatal k, log ++ [startingPoint])
            | .ok path =>
              match DFS_internal_backtracking m pathLength none (pathLength + 1)
                  ⟨path, visited, 0⟩ with
              | .fatal k => (.fatal k, log ++ [startingPoint])
              | .stuck => (.stuck, log ++ [startingPoint])
              | .ret (true, st) => (.found st.path, log ++ [startingPoint])
              | .ret (false, st) =>
                DFS_findLoopLog m pathLength n used st.visited st.path draws
                  (log ++ [startingPoint])

/-! ## Parallel mode: worker and result publication
(`DFS_findPathThreaded` in the same translation unit) -/

/-- How a modelled worker run ended. -/
inductive WorkerEnd where
  | finished
  | fatal (k : FatalKind)
  | stuck
  deriving DecidableEq, Repr

/-- One entry of the completion-mutex critical section by a worker: the
verdict of its `DFS_internal_backtracking` call, the value of the volatile
`*path_is_found_p` read when that verdict was `false`, and the worker's path
at that moment. -/
structure PubEvent where
  success : Bool
  sawFlag : Bool
  path : PathBuf
  deriving DecidableEq, Repr

/-- Modelled outcome of one worker: its critical-section entries in program
order, and how its restart loop ended. -/
structure WorkerOut where
  events : List PubEvent
  ending : WorkerEnd
  deriving DecidableEq, Repr

/-- The restart loop of `DFS_findPathThreaded`.  Cross-thread interaction is
injected: `usedValid k` is the outcome of the k-th mutex-protected
check-and-mark on the shared exhausted-origins vector, and `flagStream i` is
the value of the i-th volatile read of the shared completion flag (the reads
inside `DFS_internal_backtracking` come from the same stream).  After a
critical-section entry the worker destroys its visited vector (the pointer
becomes `NULL`) and keeps looping, as in the source. -/
def DFS_workerLoop (m : WorldMatrix) (pathLength : Nat)
    (flagStream : Nat → Bool) (usedValid : Nat → Bool) :
    Nat → Option StartingPointVector → PathBuf → List Nat → Nat → Nat →
    List PubEvent → WorkerOut
  | 0, _, _, _, _, _, evs => ⟨evs, .finished⟩
  | n + 1, visited, path, draws, flagIdx, lockIdx, evs =>
    let visited := STPOINT_cleanVectorO visited
    let path := PATH_clearPath path
    match UTILITY_generateRandomNumber (MATRIXWORLD_getColSize m) draws with
    | none => ⟨evs, .stuck⟩
    | some (r, draws) =>
      match UTILITY_generateRandomNumber (MATRIXWORLD_getRowSize m) draws with
      | none => ⟨evs, .stuck⟩
      | some (c, draws) =>
        let startingPoint : Cords := ⟨r, c⟩
        let isStartingPointValid := usedValid lockIdx
        let lockIdx := lockIdx + 1
        if isStartingPointValid then
          match MATRIXWORLD_isBlocked m startingPoint.row startingPoint.col with
          | .error k => ⟨evs, .fatal k⟩
          | .ok true =>
            DFS_workerLoop m pathLength flagStream usedValid n visited path
              draws flagIdx lockIdx evs
          | .ok false =>
            if flagStream flagIdx then ⟨evs, .finished⟩
            else
              let flagIdx := flagIdx + 1
              let visited := STPOINT_addPointO visited startingPoint
              match PATH_addCoordinates path startingPoint.row startingPoint.col with
              | .error k => ⟨evs, .fatal k⟩
              | .ok path =>
                match DFS_internal_backtracking m pathLength (some flagStream)
                    (pathLength + 1) ⟨path, visited, flagIdx⟩ with
                | .fatal k => ⟨evs, .fatal k⟩
                | .stuck => ⟨evs, .stuck⟩
                | .ret (true, st) =>
                  DFS_workerLoop m pathLength flagStream usedValid n none
                    st.path draws st.flagIdx lockIdx
                    (evs ++ [⟨true, false, st.path⟩])
                | .ret (false, st) =>
                  if flagStream st.flagIdx then
                    DFS_workerLoop m pathLength flagStream usedValid n none
                      st.path draws (st.flagIdx + 1) lockIdx
                      (evs ++ [⟨false, true, st.path⟩])
                  else
                    DFS_workerLoop m pathLength flagStream usedValid n
                      st.visited st.path draws (st.flagIdx + 1) lockIdx evs
        else
          DFS_workerLoop m pathLength flagStream usedValid n visited path
            draws flagIdx lockIdx evs

/-- `DFS_findPathThreaded` (one worker): the requested length reaches the
worker through the `uint16_t` field `desiredPathLength` of
`DFS_ThreadArgs_t`, i.e. reduced mod 2 ^ 16; the worker then creates the
local visited vector and path and runs the restart loop
`MATRIXWORLD_getNoOfUnblockedCells` times. -/
def DFS_findPathThreaded (m : WorldMatrix) (pathLength : Nat)
    (flagStream : Nat → Bool) (usedValid : Nat → Bool) (draws : List Nat) :
    WorkerOut :=
  let desiredPathLength := pathLength % 65536
  let noOfUnblockedElements := MATRIXWORLD_getNoOfUnblockedCells m
  let visitedPoints := STPOINT_createVector m
  match PATH_initializePath desiredPathLength m with
  | .error k => ⟨[], .fatal k⟩
  | .ok foundPath =>
    DFS_workerLoop m desiredPathLength flagStream usedValid
      noOfUnblockedElements visitedPoints foundPath draws 0 0 []

/-- The shared completion flag and result slot of the parallel mode. -/
structure PubState where
  isPathFound : Bool
  slot : Option PathBuf
  deriving DecidableEq, Repr

/-- Body of the completion-mutex critical section: publish (copy the path
into the shared slot and raise the flag) only while the flag is still false;
later entries leave the state untouched. -/
def DFS_publishStep (s : PubState) (e : PubEvent) : PubState :=
  if s.isPathFound then s else { isPathFound := true, slot := some e.path }

/-- All critical-section entries of a parallel run, in the order in which the
completion mutex serialised them, applied to the initial shared state. -/
def DFS_runPublications (evs : List PubEvent) : PubState :=
  evs.foldl DFS_publishStep ⟨false, none⟩

/-- `Merge ls evs`: `evs` is an interleaving of the lists in `ls` that keeps
each list's internal order — the possible mutex serialisations of several
workers' critical-section entries. -/
inductive Merge : List (List PubEvent) → List PubEvent → Prop
  | nil (ls : List (List PubEvent)) (h : ∀ l ∈ ls, l = []) : Merge ls []
  | step (ls : List (List PubEvent)) (i : Nat) (e : PubEvent)
      (l : List PubEvent) (out : List PubEvent)
      (hget : ls.get? i = some (e :: l))
      (hrest : Merge (ls.set i l) out) : Merge ls (e :: out)

/-! ## Specification-side predicates -/

/-- Validity of a returned path, as required by the claims: exact requested
length, contiguity (checked with the source's own `PATH_isContiguous`), all
coordinates in bounds and on unblocked cells, no repeated coordinate. -/
def PathValid (m : WorldMatrix) (pathLength : Nat) (p : PathBuf) : Prop :=
  p.cords.length = pathLength ∧
  PATH_isContiguous p = true ∧
  (∀ c ∈ p.cords, c.row < m.rows ∧ c.col < m.cols ∧
    m.world.getD (c.row * m.cols + c.col) false = false) ∧
  p.cords.Nodup

/-- Well-formedness of a constructed grid: the cached total size matches the
dimensions, the dimensions are `uint16_t` values, and the construction-time
minimum size held. -/
def GridWF (m : WorldMatrix) : Prop :=
  m.worldSize = m.rows * m.cols ∧ 4 ≤ m.worldSize ∧
  m.rows ≤ 65535 ∧ m.cols ≤ 65535

/-! ## Order and binary-search infrastructure -/

/-- The strict order realised by `STPOINT_internal_compareCords`: by row,
then by column. -/
def cordLt (a b : Cords) : Prop :=
  a.row < b.row ∨ (a.row = b.row ∧ a.col < b.col)

instance : DecidableRel cordLt := fun a b => by
  unfold cordLt; infer_instance

theorem cordLt_trans {a b c : Cords} (h1 : cordLt a b) (h2 : cordLt b c) :
    cordLt a c := by
  unfold cordLt at *; omega

theorem cordLt_irrefl (a : Cords) : ¬ cordLt a a := by
  unfold cordLt; omega

instance : IsIrrefl Cords cordLt :=
  ⟨by intro a h; unfold cordLt at h; omega⟩

instance : IsTrans Cords cordLt :=
  ⟨by intro a b c hab hbc; unfold cordLt at *; omega⟩

theorem compareCords_eq_zero {a b : Cords} :
    STPOINT_internal_compareCords a b = 0 ↔ a = b := by
  obtain ⟨ar, ac⟩ := a
  obtain ⟨br, bc⟩ := b
  unfold STPOINT_internal_compareCords
  simp only [Cords.mk.injEq]
  split_ifs <;> simp_all <;> omega

theorem compareCords_neg {a b : Cords} :
    STPOINT_internal_compareCords a b < 0 ↔ cordLt a b := by
  obtain ⟨ar, ac⟩ := a
  obtain ⟨br, bc⟩ := b
  unfold STPOINT_internal_compareCords cordLt
  split_ifs <;> simp_all <;> omega

theorem compareCords_pos {a b : Cords} :
    0 < STPOINT_internal_compareCords a b ↔ cordLt b a := by
  obtain ⟨ar, ac⟩ := a
  obtain ⟨br, bc⟩ := b
  unfold STPOINT_internal_compareCords cordLt
  split_ifs <;> simp_all <;> omega

theorem bsearch_stop (pts : List Cords) (x : Cords) (fuel : Nat)
    (lo hi : Int) (h : ¬ lo ≤ hi) :
    STPOINT_bsearch pts x fuel lo hi = none := by
  cases fuel with
  | zero => rfl
  | succ fuel => simp only [STPOINT_bsearch]; rw [if_neg h]

theorem bsearch_step (pts : List Cords) (x : Cords) (fuel : Nat)
    (lo hi : Int) (h : lo ≤ hi) :
    STPOINT_bsearch pts x (fuel + 1) lo hi =
      (if STPOINT_internal_compareCords x
            (pts.getD (lo + (hi - lo) / 2).toNat ⟨0, 0⟩) = 0
       then some (lo + (hi - lo) / 2).toNat
       else if STPOINT_internal_compareCords x
            (pts.getD (lo + (hi - lo) / 2).toNat ⟨0, 0⟩) < 0
       then STPOINT_bsearch pts x fuel lo (lo + (hi - lo) / 2 - 1)
       else STPOINT_bsearch pts x fuel (lo + (hi - lo) / 2 + 1) hi) := by
  simp only [STPOINT_bsearch]; rw [if_pos h]

theorem addSearch_stop (pts : List Cords) (x : Cords) (fuel : Nat)
    (lo hi : Int) (h : ¬ lo ≤ hi) :
    STPOINT_addSearch pts x fuel lo hi = some lo.toNat := by
  cases fuel with
  | zero => rfl
  | succ fuel => simp only [STPOINT_addSearch]; rw [if_neg h]

theorem addSearch_step (pts : List Cords) (x : Cords) (fuel : Nat)
    (lo hi : Int) (h : lo ≤ hi) :
    STPOINT_addSearch pts x (fuel + 1) lo hi =
      (if STPOINT_internal_compareCords
            (pts.getD (lo + (hi - lo) / 2).toNat ⟨0, 0⟩) x = 0
       then none
       else if 0 < STPOINT_internal_compareCords
            (pts.getD (lo + (hi - lo) / 2).toNat ⟨0, 0⟩) x
       then STPOINT_addSearch pts x fuel lo (lo + (hi - lo) / 2 - 1)
       else STPOINT_addSearch pts x fuel (lo + (hi - lo) / 2 + 1) hi) := by
  simp only [STPOINT_addSearch]; rw [if_pos h]

/-- A sorted list relates earlier entries to later ones. -/
theorem sorted_getElem_lt {pts : List Cords} (hs : List.Sorted cordLt pts)
    {i j : Nat} (hi : i < pts.length) (hj : j < pts.length) (hij : i < j) :
    cordLt pts[i] pts[j] := by
  have h := List.pairwise_iff_get.mp hs ⟨i, hi⟩ ⟨j, hj⟩ hij
  simpa [List.get_eq_getElem] using h

/-- The libc-style binary search finds any key present in a sorted array,
provided the key's index lies in the searched range. -/
theorem bsearch_some_of_mem_aux (pts : List Cords)
    (hs : List.Sorted cordLt pts) (x : Cords) (j : Nat) (hj : j < pts.length)
    (hx : pts[j] = x) :
    ∀ n : Nat, ∀ lo hi : Int, (hi + 1 - lo).toNat ≤ n →
      0 ≤ lo → hi < pts.length → lo ≤ (j : Int) → (j : Int) ≤ hi →
      (STPOINT_bsearch pts x n lo hi).isSome = true := by
  intro n
  induction n with
  | zero => intro lo hi hle _ _ hlo hhi; omega
  | succ n ih =>
    intro lo hi hle h0 hlen hlo hhi
    have hlohi : lo ≤ hi := le_trans hlo hhi
    have hmid1 : lo ≤ lo + (hi - lo) / 2 := by omega
    have hmid2 : lo + (hi - lo) / 2 ≤ hi := by omega
    have hmidlt : (lo + (hi - lo) / 2).toNat < pts.length := by omega
    rw [bsearch_step pts x n lo hi hlohi]
    rw [List.getD_eq_getElem pts ⟨0, 0⟩ hmidlt]
    rcases lt_trichotomy
        (STPOINT_internal_compareCords x pts[(lo + (hi - lo) / 2).toNat]) 0
      with hc | hc | hc
    · rw [if_neg (by omega), if_pos hc]
      -- x is strictly below the probed entry, so j lies strictly left of mid
      have hxmid : cordLt x pts[(lo + (hi - lo) / 2).toNat] :=
        compareCords_neg.mp hc
      have hjmid : j < (lo + (hi - lo) / 2).toNat := by
        by_contra hcon
        push_neg at hcon
        rcases Nat.lt_or_ge (lo + (hi - lo) / 2).toNat j with hlt | hge
        · have h2 := sorted_getElem_lt hs hmidlt hj hlt
          rw [hx] at h2
          exact cordLt_irrefl x (cordLt_trans hxmid h2)
        · have hjeq : j = (lo + (hi - lo) / 2).toNat := by omega
          subst hjeq
          rw [hx] at hxmid
          exact cordLt_irrefl x hxmid
      exact ih lo (lo + (hi - lo) / 2 - 1) (by omega) h0 (by omega) hlo (by omega)
    · rw [if_pos hc]; rfl
    · rw [if_neg (by omega), if_neg (by omega)]
      have hxmid : cordLt pts[(lo + (hi - lo) / 2).toNat] x :=
        compareCords_pos.mp hc
      have hjmid : (lo + (hi - lo) / 2).toNat < j := by
        by_contra hcon
        push_neg at hcon
        rcases Nat.lt_or_ge j (lo + (hi - lo) / 2).toNat with hlt | hge
        · have h2 := sorted_getElem_lt hs hj hmidlt hlt
          rw [hx] at h2
          exact cordLt_irrefl x (cordLt_trans h2 hxmid)
        · have hjeq : j = (lo + (hi - lo) / 2).toNat := by omega
          subst hjeq
          rw [hx] at hxmid
          exact cordLt_irrefl x hxmid
      exact ih (lo + (hi - lo) / 2 + 1) hi (by omega) (by omega) hlen (by omega) hhi

/-- `STPOINT_containsPoint` reports `true` for every member of a sorted
vector (completeness of the binary search). -/
theorem containsPoint_complete {v : StartingPointVector}
    (hs : List.Sorted cordLt v.points) {x : Cords} (hx : x ∈ v.points) :
    STPOINT_containsPoint v x = true := by
  obtain ⟨j, hj, hget⟩ := List.mem_iff_getElem.mp hx
  have hne : v.points.length ≠ 0 := by omega
  unfold STPOINT_containsPoint
  rw [if_neg hne]
  exact bsearch_some_of_mem_aux v.points hs x j hj hget
    (v.points.length + 1) 0 ((v.points.length : Int) - 1) (by omega) (by omega)
    (by omega) (by omega) (by omega)

/-- Specification of the insertion binary search of `STPOINT_addPoint` on a
sorted array: `none` detects membership, `some i` is the partition index of
`x` (everything before is smaller, everything from `i` on is larger). -/
theorem addSearch_spec (pts : List Cords) (hs : List.Sorted cordLt pts)
    (x : Cords) :
    ∀ n : Nat, ∀ lo hi : Int, (hi + 1 - lo).toNat ≤ n →
      0 ≤ lo → lo ≤ hi + 1 → hi < pts.length →
      (∀ k, (hk : k < pts.length) → (k : Int) < lo → cordLt pts[k] x) →
      (∀ k, (hk : k < pts.length) → hi < (k : Int) → cordLt x pts[k]) →
      (STPOINT_addSearch pts x n lo hi = none → x ∈ pts) ∧
      (∀ i, STPOINT_addSearch pts x n lo hi = some i →
        i ≤ pts.length ∧
        (∀ k, (hk : k < pts.length) → k < i → cordLt pts[k] x) ∧
        (∀ k, (hk : k < pts.length) → i ≤ k → cordLt x pts[k])) := by
  intro n
  induction n with
  | zero =>
    intro lo hi hle h0 hlo1 hlen hlow hhigh
    have hstop : ¬ lo ≤ hi := by omega
    rw [show STPOINT_addSearch pts x 0 lo hi = some lo.toNat from rfl]
    refine ⟨(by intro h; cases h), ?_⟩
    intro i hi2
    have hieq : i = lo.toNat := by
      injection hi2 with h; omega
    subst hieq
    refine ⟨by omega, ?_, ?_⟩
    · intro k hk hki
      exact hlow k hk (by omega)
    · intro k hk hik
      exact hhigh k hk (by omega)
  | succ n ih =>
    intro lo hi hle h0 hlo1 hlen hlow hhigh
    by_cases hlohi : lo ≤ hi
    · have hmid1 : lo ≤ lo + (hi - lo) / 2 := by omega
      have hmid2 : lo + (hi - lo) / 2 ≤ hi := by omega
      have hmidlt : (lo + (hi - lo) / 2).toNat < pts.length := by omega
      rw [addSearch_step pts x n lo hi hlohi]
      rw [List.getD_eq_getElem pts ⟨0, 0⟩ hmidlt]
      rcases lt_trichotomy
          (STPOINT_internal_compareCords pts[(lo + (hi - lo) / 2).toNat] x) 0
        with hc | hc | hc
      · -- pts[mid] below x: search the right half
        rw [if_neg (by omega), if_neg (by omega)]
        have hmx : cordLt pts[(lo + (hi - lo) / 2).toNat] x :=
          compareCords_neg.mp hc
        refine ih (lo + (hi - lo) / 2 + 1) hi (by omega) (by omega) (by omega)
          hlen ?_ hhigh
        intro k hk hkmid
        rcases Nat.lt_or_ge k (lo + (hi - lo) / 2).toNat with hlt | hge
        · exact cordLt_trans (sorted_getElem_lt hs hk hmidlt hlt) hmx
        · have hkeq : k = (lo + (hi - lo) / 2).toNat := by omega
          subst hkeq
          exact hmx
      · -- found
        rw [if_pos hc]
        refine ⟨?_, (by intro i h; cases h)⟩
        intro _
        have hmx : pts[(lo + (hi - lo) / 2).toNat] = x :=
          compareCords_eq_zero.mp hc
        rw [← hmx]
        exact List.getElem_mem hmidlt
      · -- pts[mid] above x: search the left half
        rw [if_neg (by omega), if_pos hc]
        have hmx : cordLt x pts[(lo + (hi - lo) / 2).toNat] :=
          compareCords_pos.mp hc
        refine ih lo (lo + (hi - lo) / 2 - 1) (by omega) h0 (by omega)
          (by omega) hlow ?_
        intro k hk hkmid
        rcases Nat.lt_or_ge (lo + (hi - lo) / 2).toNat k with hlt | hge
        · exact cordLt_trans hmx (sorted_getElem_lt hs hmidlt hk hlt)
        · have hkeq : k = (lo + (hi - lo) / 2).toNat := by omega
          subst hkeq
          exact hmx
    · have hstop := hlohi
      rw [addSearch_stop pts x (n + 1) lo hi hstop]
      refine ⟨(by intro h; cases h), ?_⟩
      intro i hi2
      have hieq : i = lo.toNat := by
        injection hi2 with h; omega
      subst hieq
      refine ⟨by omega, ?_, ?_⟩
      · intro k hk hki
        exact hlow k hk (by omega)
      · intro k hk hik
        exact hhigh k hk (by omega)

/-- `STPOINT_addSearch` over the full range of a sorted non-empty array. -/
theorem addSearch_full (pts : List Cords) (hs : List.Sorted cordLt pts)
    (x : Cords) (hne : pts.length ≠ 0) :
    (STPOINT_addSearch pts x (pts.length + 1) 0 ((pts.length : Int) - 1) =
        none → x ∈ pts) ∧
    (∀ i, STPOINT_addSearch pts x (pts.length + 1) 0
        ((pts.length : Int) - 1) = some i →
      i ≤ pts.length ∧
      (∀ k, (hk : k < pts.length) → k < i → cordLt pts[k] x) ∧
      (∀ k, (hk : k < pts.length) → i ≤ k → cordLt x pts[k])) :=
  addSearch_spec pts hs x (pts.length + 1) 0 ((pts.length : Int) - 1) (by omega)
    (by omega) (by omega) (by omega)
    (by intro k hk h; omega) (by intro k hk h; omega)

theorem addPoint_capacity (v : StartingPointVector) (x : Cords) :
    (STPOINT_addPoint v x).capacity = v.capacity := by
  unfold STPOINT_addPoint
  split_ifs with h1 h2
  · rfl
  · rfl
  · cases h : STPOINT_addSearch v.points x (v.points.length + 1) 0 ((v.points.length : Int) - 1) <;> rfl

theorem addPoint_mem_mono {v : StartingPointVector} {y : Cords}
    (hy : y ∈ v.points) (x : Cords) : y ∈ (STPOINT_addPoint v x).points := by
  unfold STPOINT_addPoint
  split_ifs with h1 h2
  · exact hy
  · rw [List.length_eq_zero] at h2; rw [h2] at hy; cases hy
  · cases h : STPOINT_addSearch v.points x (v.points.length + 1) 0 ((v.points.length : Int) - 1) with
    | none => exact hy
    | some i =>
      simp only
      conv at hy => rw [← List.take_append_drop i v.points]
      rcases List.mem_append.mp hy with hmem | hmem
      · exact List.mem_append.mpr (Or.inl hmem)
      · exact List.mem_append.mpr (Or.inr (List.mem_cons_of_mem x hmem))

theorem addPoint_subset {v : StartingPointVector} {y : Cords} {x : Cords}
    (hy : y ∈ (STPOINT_addPoint v x).points) : y = x ∨ y ∈ v.points := by
  unfold STPOINT_addPoint at hy
  split_ifs at hy with h1 h2
  · exact Or.inr hy
  · rcases List.mem_cons.mp hy with he | he
    · exact Or.inl he
    · cases he
  · cases h : STPOINT_addSearch v.points x (v.points.length + 1) 0 ((v.points.length : Int) - 1) with
    | none => rw [h] at hy; exact Or.inr hy
    | some i =>
      rw [h] at hy
      simp only at hy
      rcases List.mem_append.mp hy with hmem | hmem
      · exact Or.inr (List.take_subset i v.points hmem)
      · rcases List.mem_cons.mp hmem with he | hmem2
        · exact Or.inl he
        · exact Or.inr (List.drop_subset i v.points hmem2)

theorem addPoint_sorted {v : StartingPointVector}
    (hs : List.Sorted cordLt v.points) (x : Cords) :
    List.Sorted cordLt (STPOINT_addPoint v x).points := by
  unfold STPOINT_addPoint
  split_ifs with h1 h2
  · exact hs
  · simp
  · cases h : STPOINT_addSearch v.points x (v.points.length + 1) 0 ((v.points.length : Int) - 1) with
    | none => exact hs
    | some i =>
      simp only
      obtain ⟨hile, hbelow, habove⟩ := (addSearch_full v.points hs x h2).2 i h
      rw [List.Sorted, List.pairwise_append]
      refine ⟨hs.sublist (List.take_sublist i v.points), ?_, ?_⟩
      · rw [List.pairwise_cons]
        refine ⟨?_, hs.sublist (List.drop_sublist i v.points)⟩
        intro b hb
        obtain ⟨j, hj, hget⟩ := List.mem_iff_getElem.mp hb
        have hj2 : i + j < v.points.length := by
          rw [List.length_drop] at hj; omega
        rw [List.getElem_drop] at hget
        rw [← hget]
        exact habove (i + j) hj2 (by omega)
      · intro a ha b hb
        obtain ⟨j, hj, hgeta⟩ := List.mem_iff_getElem.mp ha
        have hjlen : j < v.points.length := by
          rw [List.length_take] at hj; omega
        have hji : j < i := by
          rw [List.length_take] at hj; omega
        rw [List.getElem_take] at hgeta
        have hax : cordLt a x := by
          rw [← hgeta]; exact hbelow j hjlen hji
        rcases List.mem_cons.mp hb with hbx | hbd
        · rw [hbx]; exact hax
        · obtain ⟨j2, hj2, hgetb⟩ := List.mem_iff_getElem.mp hbd
          have hj22 : i + j2 < v.points.length := by
            rw [List.length_drop] at hj2; omega
          rw [List.getElem_drop] at hgetb
          have hxb : cordLt x b := by
            rw [← hgetb]; exact habove (i + j2) hj22 (by omega)
          exact cordLt_trans hax hxb

theorem addPoint_mem_self {v : StartingPointVector}
    (hs : List.Sorted cordLt v.points) (x : Cords)
    (hroom : v.points.length < v.capacity ∨ x ∈ v.points) :
    x ∈ (STPOINT_addPoint v x).points := by
  unfold STPOINT_addPoint
  split_ifs with h1 h2
  · rcases hroom with h | h
    · omega
    · exact h
  · simp
  · cases h : STPOINT_addSearch v.points x (v.points.length + 1) 0 ((v.points.length : Int) - 1) with
    | none => exact (addSearch_full v.points hs x h2).1 h
    | some i =>
      simp only
      exact List.mem_append.mpr (Or.inr (List.mem_cons_self x _))

/-- The coordinates of an `r × c` grid as a finset. -/
def cellFinset (r c : Nat) : Finset Cords :=
  (Finset.range r ×ˢ Finset.range c).map
    ⟨fun p => ⟨p.1, p.2⟩, by
      intro a b hab
      simpa [Cords.mk.injEq, Prod.ext_iff] using hab⟩

theorem mem_cellFinset {r c : Nat} {x : Cords} :
    x ∈ cellFinset r c ↔ x.row < r ∧ x.col < c := by
  unfold cellFinset
  simp only [Finset.mem_map, Finset.mem_product, Finset.mem_range,
    Function.Embedding.coeFn_mk]
  constructor
  · rintro ⟨⟨a, b⟩, ⟨ha, hb⟩, rfl⟩; exact ⟨ha, hb⟩
  · rintro ⟨h1, h2⟩; exact ⟨(x.row, x.col), ⟨h1, h2⟩, by cases x; rfl⟩

theorem cellFinset_card (r c : Nat) : (cellFinset r c).card = r * c := by
  unfold cellFinset
  rw [Finset.card_map, Finset.card_product, Finset.card_range, Finset.card_range]

/-- Pigeonhole: a duplicate-free list of in-bounds coordinates that misses
some in-bounds coordinate has fewer than `r * c` entries. -/
theorem length_lt_of_not_mem {r c : Nat} {pts : List Cords}
    (hnd : pts.Nodup) (hb : ∀ y ∈ pts, y.row < r ∧ y.col < c)
    {x : Cords} (hx : x ∉ pts) (hxr : x.row < r) (hxc : x.col < c) :
    pts.length < r * c := by
  have hnd2 : (x :: pts).Nodup := List.nodup_cons.mpr ⟨hx, hnd⟩
  have hsub : (x :: pts).toFinset ⊆ cellFinset r c := by
    intro y hy
    rw [List.mem_toFinset] at hy
    rcases List.mem_cons.mp hy with rfl | hy2
    · exact mem_cellFinset.mpr ⟨hxr, hxc⟩
    · exact mem_cellFinset.mpr (hb y hy2)
  have hcard := Finset.card_le_card hsub
  rw [List.toFinset_card_of_nodup hnd2, cellFinset_card] at hcard
  simp only [List.length_cons] at hcard
  omega

/-- A duplicate-free list of in-bounds coordinates has at most `r * c`
entries. -/
theorem length_le_of_nodup {r c : Nat} {pts : List Cords}
    (hnd : pts.Nodup) (hb : ∀ y ∈ pts, y.row < r ∧ y.col < c) :
    pts.length ≤ r * c := by
  have hsub : pts.toFinset ⊆ cellFinset r c := by
    intro y hy
    rw [List.mem_toFinset] at hy
    exact mem_cellFinset.mpr (hb y hy)
  have hcard := Finset.card_le_card hsub
  rw [List.toFinset_card_of_nodup hnd, cellFinset_card] at hcard
  exact hcard

/-! ## Claim theorems: grid, path container, vector, RNG, getters -/

/-- C1: the grid count invariant `blockedCount + unblockedCount = rows*cols`
is broken by `MATRIXWORLD_matrixBlanking`: on a fresh 2×2 grid, blanking the
single cell `(0,0)` leaves `blocked = 1` and `unblocked = 2` (the loop's
`setCell` bookkeeping is applied a second time after the loop), so the sum
is 3 while `rows*cols = 4`. -/
theorem matrixBlanking_count_invariant_violation :
    ((MATRIXWORLD_matrixInitialization 2 2).bind
        (fun m => MATRIXWORLD_matrixBlanking m [⟨0, 0⟩])).map
      (fun m => (m.noOfBlockedCells + m.noOfUnblockedCells, m.rows * m.cols)) =
      .ok (3, 4) := by decide

/-- C2 (amended): `PATH_initializePath` aborts exactly when the requested
capacity is 0; the 75 % bound only prints an error message, so a 25-cell
grid with requested capacity 30 still gets its buffer and the search
proceeds (the repository's own test expects the NULL search result for
that scenario, not an abort). -/
theorem path_construction_zero_abort :
    (∀ (pathSize : Nat) (g : WorldMatrix),
      (∃ k, PATH_initializePath pathSize g = .error k) ↔ pathSize = 0) ∧
    (MATRIXWORLD_matrixInitialization 5 5).bind
        (fun g => PATH_initializePath 30 g) = .ok ⟨30, []⟩ := by
  refine ⟨?_, by decide⟩
  intro L g
  simp only [PATH_initializePath]
  split_ifs with h0
  · exact iff_of_true ⟨_, rfl⟩ h0
  · constructor
    · rintro ⟨k, hk⟩; cases hk
    · intro h
      exact absurd h h0

/-- The abort claimed for the 75 % violation does not happen: on a fresh
2x2 grid a requested length of 4 (above 75 % of the 4 cells) constructs
the buffer, and the sequential search even returns a full 4-cell path. -/
theorem path_construction_no_bound_abort :
    (MATRIXWORLD_matrixInitialization 2 2).map
      (fun g => DFS_internal_findPathSingleThread g 4 [0, 0]) =
      .ok (.found ⟨4, [⟨0, 0⟩, ⟨0, 1⟩, ⟨1, 1⟩, ⟨1, 0⟩]⟩) := by decide

/-- C6: `STPOINT_removePoint` violates the documented membership semantics.
On the 4-capacity vector of a 2×2 grid: removal from the empty vector is a
fatal abort (not a silent no-op), and once the vector is full
(size = capacity = 4) removal of the present point `(0,0)` is a silent no-op,
after which `contains` still reports the point, contradicting the net
membership implied by the operation sequence. -/
theorem stpoint_remove_violations :
    ∀ m v, MATRIXWORLD_matrixInitialization 2 2 = .ok m →
      STPOINT_createVector m = some v →
      STPOINT_removePoint v ⟨0, 0⟩ = .error .removeFromEmpty ∧
      (let v4 := STPOINT_addPoint (STPOINT_addPoint (STPOINT_addPoint
          (STPOINT_addPoint v ⟨0, 0⟩) ⟨0, 1⟩) ⟨1, 0⟩) ⟨1, 1⟩
       STPOINT_removePoint v4 ⟨0, 0⟩ = .ok v4 ∧
       STPOINT_containsPoint v4 ⟨0, 0⟩ = true ∧
       STPOINT_getSize v4 = v4.capacity) := by
  intro m v h1 h2
  rw [show MATRIXWORLD_matrixInitialization 2 2 = Except.ok
      ⟨2, 2, 4, 0, 4, [false, false, false, false]⟩ from by decide] at h1
  injection h1 with h1
  subst h1
  rw [show STPOINT_createVector
      (⟨2, 2, 4, 0, 4, [false, false, false, false]⟩ : WorldMatrix) =
      some ⟨4, []⟩ from by decide] at h2
  injection h2 with h2
  subst h2
  exact ⟨by decide, by decide, by decide, by decide⟩

/-- Witness for C6's theorem at the concrete grid and vector. -/
theorem stpoint_remove_violations_witness :
    STPOINT_removePoint ⟨4, []⟩ ⟨0, 0⟩ = .error .removeFromEmpty ∧
      (let v4 := STPOINT_addPoint (STPOINT_addPoint (STPOINT_addPoint
          (STPOINT_addPoint (⟨4, []⟩ : StartingPointVector) ⟨0, 0⟩) ⟨0, 1⟩)
          ⟨1, 0⟩) ⟨1, 1⟩
       STPOINT_removePoint v4 ⟨0, 0⟩ = .ok v4 ∧
       STPOINT_containsPoint v4 ⟨0, 0⟩ = true ∧
       STPOINT_getSize v4 = v4.capacity) :=
  stpoint_remove_violations ⟨2, 2, 4, 0, 4, [false, false, false, false]⟩
    ⟨4, []⟩ (by decide) (by decide)

/-- C7: grid construction fails (fatally) exactly when `rows * cols < 4`;
degenerate 0-, 1-, 2- and 3-cell grids are all rejected, while a 4-cell grid
is accepted. -/
theorem matrix_construction_minimum_size :
    (∀ rows cols : Nat,
      (∃ k, MATRIXWORLD_matrixInitialization rows cols = .error k) ↔
        rows * cols < 4) ∧
    MATRIXWORLD_matrixInitialization 1 1 = .error .minMatrixSize ∧
    MATRIXWORLD_matrixInitialization 1 2 = .error .minMatrixSize ∧
    MATRIXWORLD_matrixInitialization 1 3 = .error .minMatrixSize ∧
    MATRIXWORLD_matrixInitialization 3 0 = .error .minMatrixSize ∧
    (∃ m, MATRIXWORLD_matrixInitialization 2 2 = .ok m) := by
  refine ⟨?_, by decide, by decide, by decide, by decide, ⟨_, rfl⟩⟩
  intro rows cols
  simp only [MATRIXWORLD_matrixInitialization]
  split_ifs with h
  · exact iff_of_true ⟨_, rfl⟩ h
  · constructor
    · rintro ⟨k, hk⟩; cases hk
    · intro h2; exact absurd h2 h

/-- C9: `UTILITY_generateRandomNumber 0` returns `UINT16_MAX` immediately
without drawing or evaluating the modulo, and for every positive upper bound
any returned value is strictly below the bound. -/
theorem generateRandomNumber_zero_and_bound :
    (∀ draws, UTILITY_generateRandomNumber 0 draws = some (UINT16_MAX, draws)) ∧
    (∀ upperBound draws v rest, 0 < upperBound →
      UTILITY_generateRandomNumber upperBound draws = some (v, rest) →
      v < upperBound) := by
  constructor
  · intro draws; rfl
  · intro ub draws v rest hub h
    simp only [UTILITY_generateRandomNumber] at h
    rw [if_neg (by omega)] at h
    cases hloop : UTILITY_randLoop (RAND_MAX - RAND_MAX % ub) draws with
    | none => rw [hloop] at h; cases h
    | some p =>
      rw [hloop] at h
      obtain ⟨d, rest2⟩ := p
      simp only [Option.some.injEq, Prod.mk.injEq] at h
      obtain ⟨h1, _⟩ := h
      rw [← h1]
      exact Nat.mod_lt d hub

/-- Witness for C9's bound at `upperBound = 5` with the single draw 7. -/
theorem generateRandomNumber_bound_witness :
    UTILITY_generateRandomNumber 5 [7] = some (2, []) ∧ 2 < 5 :=
  ⟨by decide,
   generateRandomNumber_zero_and_bound.2 5 [7] 2 [] (by decide) (by decide)⟩

/-- C10: both cell-count getters return the 32-bit internal counters reduced
modulo 2^16; concretely, a fresh 300×300 grid stores 90000 unblocked cells
but the getter reports 24464 = 90000 mod 65536. -/
theorem cellCountGetters_truncate :
    (∀ m, MATRIXWORLD_getNoOfUnblockedCells m = m.noOfUnblockedCells % 65536) ∧
    (∀ m, MATRIXWORLD_getNoOfBlockedCells m = m.noOfBlockedCells % 65536) ∧
    (MATRIXWORLD_matrixInitialization 300 300).map
      (fun m => (m.noOfUnblockedCells, MATRIXWORLD_getNoOfUnblockedCells m)) =
      .ok (90000, 24464) :=
  ⟨fun _ => rfl, fun _ => rfl, by decide⟩

/-! ## Backtracking: visited-set retention (C5) -/

/-- Points of a possibly-`NULL` vector. -/
def optPoints : Option StartingPointVector → List Cords
  | none => []
  | some v => v.points

theorem addPointO_mem_mono {ov : Option StartingPointVector} {y : Cords}
    (hy : y ∈ optPoints ov) (x : Cords) :
    y ∈ optPoints (STPOINT_addPointO ov x) := by
  cases ov with
  | none => cases hy
  | some v => exact addPoint_mem_mono hy x

theorem btDirs_visited_mono (m : WorldMatrix)
    (rec : BTState → CRes (Bool × BTState))
    (hrec : ∀ st b st2, rec st = .ret (b, st2) →
      ∀ x, x ∈ optPoints st.visited → x ∈ optPoints st2.visited) :
    ∀ ds cur st b st2, DFS_btDirs m rec ds cur st = .ret (b, st2) →
      ∀ x, x ∈ optPoints st.visited → x ∈ optPoints st2.visited := by
  intro ds
  induction ds with
  | nil =>
    intro cur st b st2 h x hx
    simp only [DFS_btDirs] at h
    injection h with h
    rw [← (Prod.mk.injEq .. |>.mp h).2]
    exact hx
  | cons d ds ih =>
    intro cur st b st2 h x hx
    simp only [DFS_btDirs] at h
    split at h
    · split at h
      · cases h
      · split at h
        · exact ih cur st b st2 h x hx
        · split at h
          · exact ih cur st b st2 h x hx
          · split at h
            · cases h
            · split at h
              · cases h
              · cases h
              · rename_i heq
                injection h with h
                obtain ⟨hb, hst⟩ := Prod.mk.injEq .. |>.mp h
                subst hst
                exact hrec _ _ _ heq x (addPointO_mem_mono hx _)
              · rename_i heq
                have hx2 := hrec _ _ _ heq x (addPointO_mem_mono hx _)
                exact ih cur _ b st2 h x hx2
    · exact ih cur st b st2 h x hx

/-- C5: within one attempt, `DFS_internal_backtracking` only ever grows the
visited set: every coordinate in the visited vector on entry is still there
in the returned state, whether the attempt succeeds or fails — in particular
a candidate pushed and later popped from the path is never removed from the
visited set. -/
theorem backtracking_visited_monotone :
    ∀ (m : WorldMatrix) (pathLength : Nat) (flag : Option (Nat → Bool))
      (fuel : Nat) (st : BTState) (b : Bool) (st2 : BTState),
      DFS_internal_backtracking m pathLength flag fuel st = .ret (b, st2) →
      ∀ x, x ∈ optPoints st.visited → x ∈ optPoints st2.visited := by
  intro m pathLength flag fuel
  induction fuel with
  | zero => intro st b st2 h; cases h
  | succ fuel ih =>
    intro st b st2 h x hx
    simp only [DFS_internal_backtracking] at h
    split at h
    · injection h with h
      rw [← (Prod.mk.injEq .. |>.mp h).2]
      exact hx
    · split at h
      · split at h
        · injection h with h
          rw [← (Prod.mk.injEq .. |>.mp h).2]
          exact hx
        · exact btDirs_visited_mono m _ (fun s => ih s) directions
            (PATH_getLastCoordinates st.path) _ b st2 h x hx
      · exact btDirs_visited_mono m _ (fun s => ih s) directions
          (PATH_getLastCoordinates st.path) _ b st2 h x hx

/-- Witness for C5 on a concrete successful attempt: a 2×2 all-free grid,
target length 3, starting at `(0, 0)`; the starting point is still in the
returned visited set. -/
theorem backtracking_visited_monotone_witness :
    DFS_internal_backtracking
        ⟨2, 2, 4, 0, 4, [false, false, false, false]⟩ 3 none 4
        ⟨⟨3, [⟨0, 0⟩]⟩, some ⟨4, [⟨0, 0⟩]⟩, 0⟩ =
      .ret (true, ⟨⟨3, [⟨0, 0⟩, ⟨0, 1⟩, ⟨1, 1⟩]⟩,
        some ⟨4, [⟨0, 0⟩, ⟨0, 1⟩, ⟨1, 1⟩]⟩, 0⟩) ∧
    (⟨0, 0⟩ : Cords) ∈ optPoints (some (⟨4, [⟨0, 0⟩, ⟨0, 1⟩, ⟨1, 1⟩]⟩ :
      StartingPointVector)) :=
  ⟨by decide,
   backtracking_visited_monotone ⟨2, 2, 4, 0, 4, [false, false, false, false]⟩
     3 none 4 ⟨⟨3, [⟨0, 0⟩]⟩, some ⟨4, [⟨0, 0⟩]⟩, 0⟩ true
     ⟨⟨3, [⟨0, 0⟩, ⟨0, 1⟩, ⟨1, 1⟩]⟩, some ⟨4, [⟨0, 0⟩, ⟨0, 1⟩, ⟨1, 1⟩]⟩, 0⟩
     (by decide) ⟨0, 0⟩ (by decide)⟩

/-! ## Backtracking: bounds filtering (C3) -/

/-- C3 counterexample: on a non-square grid the bounds filter of
`DFS_internal_backtracking` checks the row against the column count and the
column against the row count, so the out-of-bounds abort inside
`MATRIXWORLD_isBlocked` is reachable.  Concretely: 2×5 grid with `(1,1)`
blocked, target length 2, path at `(1,0)`: the down-neighbour `(2,0)` passes
the swapped filter (`2 < 5` and `0 < 2`) and `isBlocked(2,0)` aborts. -/
theorem backtracking_oob_counterexample :
    ((MATRIXWORLD_matrixInitialization 2 5).bind
        (fun m => MATRIXWORLD_setCell m 1 1 true)).map
      (fun m => DFS_internal_backtracking m 2 none 3
        ⟨⟨2, [⟨1, 0⟩]⟩, some ⟨10, [⟨1, 0⟩]⟩, 0⟩) =
      .ok (.fatal .outOfBounds) := by decide

theorem btDirs_no_oob (m : WorldMatrix) (hsq : m.rows = m.cols)
    (rec : BTState → CRes (Bool × BTState))
    (hrec : ∀ st, rec st ≠ .fatal .outOfBounds) :
    ∀ ds cur st, DFS_btDirs m rec ds cur st ≠ .fatal .outOfBounds := by
  intro ds
  induction ds with
  | nil => intro cur st h; simp only [DFS_btDirs] at h; cases h
  | cons d ds ih =>
    intro cur st h
    simp only [DFS_btDirs] at h
    split at h
    · rename_i hbound
      simp only [MATRIXWORLD_getColSize, MATRIXWORLD_getRowSize] at hbound
      split at h
      · rename_i k heq
        simp only [MATRIXWORLD_isBlocked] at heq
        rw [if_neg (by omega)] at heq
        cases heq
      · split at h
        · exact ih cur st h
        · split at h
          · exact ih cur st h
          · split at h
            · rename_i k heq
              simp only [PATH_addCoordinates] at heq
              split at heq
              · cases heq
              · injection heq with heq
                injection h with h
                rw [← heq] at h
                cases h
            · split at h
              · rename_i k heq
                injection h with h
                rw [h] at heq
                exact hrec _ heq
              · cases h
              · cases h
              · exact ih cur _ h
    · exact ih cur st h

/-- C3 amended: candidates are discarded on underflow or when they fail the
(swapped) bounds filter; on square grids the filter therefore implies both
coordinates are in bounds, and the fatal out-of-bounds abort inside
`MATRIXWORLD_isBlocked` is unreachable from the backtracking procedure
whatever the path, visited set, fuel or cancellation stream. -/
theorem backtracking_no_oob_on_square_grids :
    ∀ (m : WorldMatrix) (pathLength : Nat) (flag : Option (Nat → Bool))
      (fuel : Nat) (st : BTState), m.rows = m.cols →
      DFS_internal_backtracking m pathLength flag fuel st ≠
        .fatal .outOfBounds := by
  intro m pathLength flag fuel
  induction fuel with
  | zero => intro st _ h; cases h
  | succ fuel ih =>
    intro st hsq h
    simp only [DFS_internal_backtracking] at h
    split at h
    · cases h
    · split at h
      · split at h
        · cases h
        · exact btDirs_no_oob m hsq _ (fun s => ih s hsq) directions _ _ h
      · exact btDirs_no_oob m hsq _ (fun s => ih s hsq) directions _ _ h

/-- Witness for C3's amended theorem on a concrete square grid. -/
theorem backtracking_no_oob_witness :
    DFS_internal_backtracking ⟨2, 2, 4, 0, 4, [false, false, false, false]⟩
      1 none 1 ⟨⟨1, [⟨0, 0⟩]⟩, some ⟨4, [⟨0, 0⟩]⟩, 0⟩ ≠
      .fatal .outOfBounds :=
  backtracking_no_oob_on_square_grids
    ⟨2, 2, 4, 0, 4, [false, false, false, false]⟩ 1 none 1
    ⟨⟨1, [⟨0, 0⟩]⟩, some ⟨4, [⟨0, 0⟩]⟩, 0⟩ rfl

/-! ## Backtracking attempt invariant (C4, C8) -/

/-- Invariant of a live visited/used vector for grid `m`: sorted, sized for
the whole grid, and holding only in-bounds coordinates. -/
def VecInv (m : WorldMatrix) (v : StartingPointVector) : Prop :=
  List.Sorted cordLt v.points ∧ m.rows * m.cols ≤ v.capacity ∧
  ∀ y ∈ v.points, y.row < m.rows ∧ y.col < m.cols

/-- Invariant of one backtracking attempt: the path under construction is a
valid partial path all of whose coordinates are registered in the
(non-`NULL`) visited vector. -/
def AttemptInv (m : WorldMatrix) (pathLength : Nat) (st : BTState) : Prop :=
  st.path.pathSize = pathLength ∧
  st.path.cords ≠ [] ∧
  st.path.cords.length ≤ pathLength ∧
  PATH_isContiguous st.path = true ∧
  (∀ c ∈ st.path.cords, c.row < m.rows ∧ c.col < m.cols ∧
    m.world.getD (c.row * m.cols + c.col) false = false) ∧
  st.path.cords.Nodup ∧
  ∃ v, st.visited = some v ∧ VecInv m v ∧ ∀ c ∈ st.path.cords, c ∈ v.points

/-- Postcondition of a backtracking run started from `st`: a fatal abort is
only possible on unequal dimensions, and a return preserves the attempt
invariant, with a full path exactly on success and the caller's path fully
restored on failure. -/
def BTPost (m : WorldMatrix) (pathLength : Nat) (st : BTState) :
    CRes (Bool × BTState) → Prop
  | .fatal _ => m.rows ≠ m.cols
  | .stuck => True
  | .ret (b, st2) =>
    AttemptInv m pathLength st2 ∧
    (b = true → st2.path.cords.length = pathLength) ∧
    (b = false → st2.path = st.path)

/-- What the backtracking recursion guarantees at the next depth. -/
def BTSpec (m : WorldMatrix) (pathLength : Nat)
    (f : BTState → CRes (Bool × BTState)) : Prop :=
  ∀ st, AttemptInv m pathLength st → BTPost m pathLength st (f st)

theorem addCoordinates_ok {p : PathBuf} {row col : Nat} {p2 : PathBuf}
    (h : PATH_addCoordinates p row col = .ok p2) :
    p.cords.length < p.pathSize ∧
    p2 = { p with cords := p.cords ++ [⟨row, col⟩] } := by
  unfold PATH_addCoordinates at h
  split at h
  · injection h with h
    exact ⟨by assumption, h.symm⟩
  · cases h

theorem isBlocked_ok {m : WorldMatrix} {row col : Nat} {b : Bool}
    (h : MATRIXWORLD_isBlocked m row col = .ok b) :
    row < m.rows ∧ col < m.cols ∧
    m.world.getD (row * m.cols + col) false = b := by
  unfold MATRIXWORLD_isBlocked at h
  split at h
  · cases h
  · injection h with h
    rename_i hcond
    push_neg at hcond
    exact ⟨hcond.1, hcond.2, h⟩

/-- An accepted candidate on a `uint16`-dimensioned grid is the true
one-step neighbour: when the filter `newRow < cols ∧ newCol < rows` passes,
the sentinel and the `int16_t` wrap-around cases are excluded, and the move
is by exactly one cardinal step. -/
theorem newCoord_accepted {m : WorldMatrix} (hr : m.rows ≤ 65535)
    (hc : m.cols ≤ 65535) {cur : Cords} (hcr : cur.row < m.rows)
    (hcc : cur.col < m.cols) {d : Int × Int} (hd : d ∈ directions)
    (hrow : DFS_newCoord cur.row d.1 < MATRIXWORLD_getColSize m)
    (hcol : DFS_newCoord cur.col d.2 < MATRIXWORLD_getRowSize m) :
    natDist cur.row (DFS_newCoord cur.row d.1) +
      natDist cur.col (DFS_newCoord cur.col d.2) = 1 := by
  simp only [MATRIXWORLD_getColSize, MATRIXWORLD_getRowSize] at hrow hcol
  simp only [directions, List.mem_cons, List.mem_singleton,
    List.not_mem_nil, or_false] at hd
  unfold DFS_newCoord toInt16 natDist UINT16_MAX at *
  rcases hd with rfl | rfl | rfl | rfl <;>
    simp only at hrow hcol ⊢ <;>
    split_ifs at hrow hcol ⊢ <;>
    omega

/-- Appending a coordinate adjacent to the last entry keeps the contiguity
scan true. -/
theorem contiguousAux_append {l : List Cords} {x : Cords}
    (hl : contiguousAux l = true)
    (hlast : ∀ c, l.getLast? = some c →
      natDist c.row x.row + natDist c.col x.col = 1) :
    contiguousAux (l ++ [x]) = true := by
  induction l with
  | nil => rfl
  | cons a l ih =>
    cases l with
    | nil =>
      have hd := hlast a rfl
      simp only [List.cons_append, List.nil_append, contiguousAux,
        Bool.and_eq_true, beq_iff_eq]
      exact ⟨hd, trivial⟩
    | cons b l2 =>
      simp only [contiguousAux, Bool.and_eq_true] at hl
      have ih2 := ih hl.2 (by
        intro c hc
        exact hlast c (by rw [List.getLast?_cons_cons]; exact hc))
      simp only [List.cons_append, contiguousAux, Bool.and_eq_true]
      refine ⟨hl.1, ?_⟩
      simpa using ih2

theorem getLast?_of_ne_nil {p : PathBuf} (h : p.cords ≠ []) :
    p.cords.getLast? = some (PATH_getLastCoordinates p) := by
  unfold PATH_getLastCoordinates
  cases hg : p.cords.getLast? with
  | none => exact absurd (List.getLast?_eq_none_iff.mp hg) h
  | some c => rfl

theorem getLastCoordinates_mem {p : PathBuf} (h : p.cords ≠ []) :
    PATH_getLastCoordinates p ∈ p.cords := by
  have hg := getLast?_of_ne_nil h
  rw [List.getLast?_eq_getLast_of_ne_nil h] at hg
  injection hg with hg
  rw [← hg]
  exact List.getLast_mem h

theorem popCoordinates_concat (s : Nat) (l : List Cords) (c : Cords) :
    (PATH_popCoordinates ⟨s, l ++ [c]⟩).2 = ⟨s, l⟩ := by
  unfold PATH_popCoordinates
  rw [List.getLast?_concat]
  simp only [List.dropLast_concat]

/-- The direction loop preserves the attempt postcondition, given the
recursion's guarantee at the next depth. -/
theorem btDirs_post (m : WorldMatrix) (pathLength : Nat) (hwf : GridWF m)
    (rec : BTState → CRes (Bool × BTState)) (hrec : BTSpec m pathLength rec) :
    ∀ ds, (∀ d ∈ ds, d ∈ directions) →
    ∀ cur st, AttemptInv m pathLength st →
      PATH_getLastCoordinates st.path = cur →
      st.path.cords.length ≠ pathLength →
      BTPost m pathLength st (DFS_btDirs m rec ds cur st) := by
  intro ds
  induction ds with
  | nil =>
    intro _ cur st hinv _ _
    simp only [DFS_btDirs]
    exact ⟨hinv, (by intro h; cases h), fun _ => rfl⟩
  | cons d ds ih =>
    intro hds cur st hinv hlast hlen
    have hdmem : d ∈ directions := hds d (List.mem_cons_self d ds)
    have ihds := ih (fun x hx => hds x (List.mem_cons_of_mem d hx))
    obtain ⟨hsize, hne, hlenle, hcont, hbou, hnd, v, hv, hvinv, hsub⟩ := hinv
    have hinv' : AttemptInv m pathLength st :=
      ⟨hsize, hne, hlenle, hcont, hbou, hnd, v, hv, hvinv, hsub⟩
    simp only [DFS_btDirs]
    split
    · rename_i hbound
      -- the (swapped) bounds filter passed
      split
      · -- isBlocked aborted: possible only on unequal dimensions
        rename_i k heqB
        simp only [MATRIXWORLD_getColSize, MATRIXWORLD_getRowSize] at hbound
        intro hsq
        unfold MATRIXWORLD_isBlocked at heqB
        split at heqB
        · rename_i hoob
          rcases hoob with hoob | hoob <;> omega
        · cases heqB
      · rename_i blocked heqB
        split
        · exact ihds cur st hinv' hlast hlen
        · rename_i hblocked
          split
          · exact ihds cur st hinv' hlast hlen
          · rename_i hcontains
            -- the candidate is accepted
            have hcur : cur ∈ st.path.cords := by
              rw [← hlast]; exact getLastCoordinates_mem hne
            obtain ⟨hcurr, hcurc, _⟩ := hbou cur hcur
            obtain ⟨hcandr, hcandc, hcandb⟩ := isBlocked_ok heqB
            have hblockedF : blocked = false := by
              revert hblocked; cases blocked <;> simp
            rw [hblockedF] at hcandb
            rw [hv] at hcontains
            have hcandnm : (⟨DFS_newCoord cur.row d.1,
                DFS_newCoord cur.col d.2⟩ : Cords) ∉ v.points := by
              intro hmem
              exact hcontains (containsPoint_complete hvinv.1 hmem)
            have hadj := newCoord_accepted hwf.2.2.1 hwf.2.2.2 hcurr hcurc
              hdmem (by
                simp only [MATRIXWORLD_getColSize] at hbound ⊢
                exact hbound.1) (by
                simp only [MATRIXWORLD_getRowSize] at hbound ⊢
                exact hbound.2)
            split
            · -- PATH_addCoordinates aborted: impossible, the path has room
              rename_i k heqA
              exfalso
              unfold PATH_addCoordinates at heqA
              split at heqA
              · cases heqA
              · omega
            · rename_i path2 heqA
              obtain ⟨hroom, hpath2⟩ := addCoordinates_ok heqA
              -- the pushed state satisfies the attempt invariant
              have hcandnp : (⟨DFS_newCoord cur.row d.1,
                  DFS_newCoord cur.col d.2⟩ : Cords) ∉ st.path.cords :=
                fun hmem => hcandnm (hsub _ hmem)
              have hroomv : v.points.length < v.capacity := by
                have h1 := length_lt_of_not_mem (hvinv.1.nodup) hvinv.2.2
                  hcandnm hcandr hcandc
                have h2 := hvinv.2.1
                omega
              have hinv2 : AttemptInv m pathLength
                  ⟨path2, STPOINT_addPointO st.visited
                    ⟨DFS_newCoord cur.row d.1, DFS_newCoord cur.col d.2⟩,
                    st.flagIdx⟩ := by
                refine ⟨by rw [hpath2]; exact hsize, ?_, ?_, ?_, ?_, ?_, ?_⟩
                · rw [hpath2]; simp
                · rw [hpath2]; simp only [List.length_append,
                    List.length_singleton]
                  omega
                · unfold PATH_isContiguous at hcont ⊢
                  rw [hpath2]
                  exact contiguousAux_append hcont (by
                    intro c hc
                    rw [getLast?_of_ne_nil hne] at hc
                    injection hc with hc
                    rw [← hc, hlast]
                    exact hadj)
                · rw [hpath2]
                  intro c hc
                  rcases List.mem_append.mp hc with hc | hc
                  · exact hbou c hc
                  · rw [List.mem_singleton] at hc
                    subst hc
                    exact ⟨hcandr, hcandc, hcandb⟩
                · rw [hpath2]
                  exact hnd.append (List.nodup_singleton _) (by
                    intro a ha hb
                    rw [List.mem_singleton] at hb
                    subst hb
                    exact hcandnp ha)
                · refine ⟨STPOINT_addPoint v
                    ⟨DFS_newCoord cur.row d.1, DFS_newCoord cur.col d.2⟩,
                    by rw [hv]; rfl, ?_, ?_⟩
                  · refine ⟨addPoint_sorted hvinv.1 _, ?_, ?_⟩
                    · rw [addPoint_capacity]; exact hvinv.2.1
                    · intro y hy
                      rcases addPoint_subset hy with rfl | hy2
                      · exact ⟨hcandr, hcandc⟩
                      · exact hvinv.2.2 y hy2
                  · rw [hpath2]
                    intro c hc
                    rcases List.mem_append.mp hc with hc | hc
                    · exact addPoint_mem_mono (hsub c hc) _
                    · rw [List.mem_singleton] at hc
                      subst hc
                      exact addPoint_mem_self hvinv.1 _ (Or.inl hroomv)
              split
              · -- recursion aborted
                rename_i k heqR
                have := hrec _ hinv2
                rw [heqR] at this
                exact this
              · exact trivial
              · -- recursion succeeded
                rename_i st2 heqR
                have hpost := hrec _ hinv2
                rw [heqR] at hpost
                obtain ⟨hinv3, hlenL, _⟩ := hpost
                exact ⟨hinv3, fun _ => hlenL rfl, (by intro h; cases h)⟩
              · -- recursion failed: pop and continue with the next direction
                rename_i st2 heqR
                have hpost := hrec _ hinv2
                rw [heqR] at hpost
                obtain ⟨hinv3, _, hrestore⟩ := hpost
                have hpathrest := hrestore rfl
                have hpop : (PATH_popCoordinates st2.path).2 = st.path := by
                  rw [hpathrest, hpath2]
                  obtain ⟨ps, cds⟩ := st.path
                  exact popCoordinates_concat ps cds _
                rw [hpop]
                have hinv4 : AttemptInv m pathLength
                    ⟨st.path, st2.visited, st2.flagIdx⟩ := by
                  obtain ⟨_, _, _, _, _, _, v2, hv2, hvinv2, hsub2⟩ := hinv3
                  refine ⟨hsize, hne, hlenle, hcont, hbou, hnd, v2, hv2,
                    hvinv2, ?_⟩
                  intro c hc
                  refine hsub2 c ?_
                  rw [hpathrest, hpath2]
                  exact List.mem_append.mpr (Or.inl hc)
                exact ihds cur ⟨st.path, st2.visited, st2.flagIdx⟩ hinv4
                  hlast hlen
    · exact ihds cur st hinv' hlast hlen

/-- `DFS_internal_backtracking` satisfies the backtracking postcondition at
every fuel, for every cancellation stream, on every well-formed grid. -/
theorem backtracking_post (m : WorldMatrix) (pathLength : Nat)
    (flag : Option (Nat → Bool)) (hwf : GridWF m) :
    ∀ fuel, BTSpec m pathLength
      (DFS_internal_backtracking m pathLength flag fuel) := by
  intro fuel
  induction fuel with
  | zero =>
    intro st hinv
    simp only [DFS_internal_backtracking]
    exact trivial
  | succ fuel ih =>
    intro st hinv
    simp only [DFS_internal_backtracking]
    split
    · rename_i hbase
      exact ⟨hinv, fun _ => hbase, (by intro h; cases h)⟩
    · rename_i hbase
      split
      · split
        · exact ⟨hinv, (by intro h; cases h), fun _ => rfl⟩
        · exact btDirs_post m pathLength hwf _ ih directions (fun x hx => hx)
            _ _ hinv rfl hbase
      · exact btDirs_post m pathLength hwf _ ih directions (fun x hx => hx)
          _ _ hinv rfl hbase

/-! ## Sequential search postcondition (C4) -/

/-- Postcondition of a sequential-search run on a square well-formed grid:
no fatal abort, and any found path is valid. -/
def FindPost (m : WorldMatrix) (pathLength : Nat) : FindResult → Prop
  | .fatal _ => False
  | .found p => PathValid m pathLength p
  | .notFound => True
  | .stuck => True

theorem findLoop_post (m : WorldMatrix) (pathLength : Nat)
    (hwf : GridWF m) (hsq : m.rows = m.cols) (hL : 0 < pathLength) :
    ∀ n used visited path draws,
      path.pathSize = pathLength →
      (∃ v, visited = some v ∧ m.rows * m.cols ≤ v.capacity) →
      FindPost m pathLength
        (DFS_findLoop m pathLength n used visited path draws) := by
  have hcols : 0 < m.cols := by
    rcases Nat.eq_zero_or_pos m.cols with h | h
    · exfalso
      have h1 := hwf.1
      have h2 := hwf.2.1
      rw [h, Nat.mul_zero] at h1
      omega
    · exact h
  have hrows : 0 < m.rows := by
    rcases Nat.eq_zero_or_pos m.rows with h | h
    · exfalso
      have h1 := hwf.1
      have h2 := hwf.2.1
      rw [h, Nat.zero_mul] at h1
      omega
    · exact h
  intro n
  induction n with
  | zero => intro used visited path draws _ _; exact trivial
  | succ n ih =>
    intro used visited path draws hsize hvis
    obtain ⟨v, hv, hcap⟩ := hvis
    simp only [DFS_findLoop]
    split
    · exact trivial
    · rename_i r draws1 hg1
      split
      · exact trivial
      · rename_i c draws2 hg2
        have hr : r < m.cols := by
          have := generateRandomNumber_zero_and_bound.2
            (MATRIXWORLD_getColSize m) draws r draws1 hcols hg1
          simpa [MATRIXWORLD_getColSize] using this
        have hc : c < m.rows := by
          have := generateRandomNumber_zero_and_bound.2
            (MATRIXWORLD_getRowSize m) draws1 c draws2 hrows hg2
          simpa [MATRIXWORLD_getRowSize] using this
        split
        · exact ih used _ _ draws2 hsize
            ⟨STPOINT_cleanVector v, by rw [hv]; rfl, hcap⟩
        · split
          · -- isBlocked cannot abort: the drawn point is in bounds (square)
            rename_i k heqB
            unfold MATRIXWORLD_isBlocked at heqB
            split at heqB
            · rename_i hoob
              exfalso
              rcases hoob with h | h <;> omega
            · cases heqB
          · exact ih used _ _ draws2 hsize
              ⟨STPOINT_cleanVector v, by rw [hv]; rfl, hcap⟩
          · rename_i heqB
            obtain ⟨hrr, hcc, hub⟩ := isBlocked_ok heqB
            split
            · -- append on the cleared path cannot abort
              rename_i k heqA
              exfalso
              unfold PATH_addCoordinates at heqA
              split at heqA
              · cases heqA
              · rename_i hfull
                simp only [PATH_clearPath, List.length_nil] at hfull
                omega
            · rename_i path1 heqA
              obtain ⟨_, hpath1⟩ := addCoordinates_ok heqA
              have hinv1 : AttemptInv m pathLength
                  ⟨path1, STPOINT_addPointO
                    (STPOINT_cleanVectorO visited) ⟨r, c⟩, 0⟩ := by
                refine ⟨by rw [hpath1]; exact hsize, by rw [hpath1]; simp,
                  ?_, ?_, ?_, ?_, ?_⟩
                · rw [hpath1]
                  simp only [PATH_clearPath, List.nil_append,
                    List.length_singleton]
                  omega
                · unfold PATH_isContiguous
                  rw [hpath1]
                  rfl
                · rw [hpath1]
                  intro x hx
                  simp only [PATH_clearPath, List.nil_append,
                    List.mem_singleton] at hx
                  subst hx
                  exact ⟨hrr, hcc, hub⟩
                · rw [hpath1]
                  simp [PATH_clearPath]
                · refine ⟨STPOINT_addPoint (STPOINT_cleanVector v) ⟨r, c⟩,
                    by rw [hv]; rfl, ?_, ?_⟩
                  · refine ⟨addPoint_sorted (by simp [STPOINT_cleanVector]) _,
                      ?_, ?_⟩
                    · rw [addPoint_capacity]
                      exact hcap
                    · intro y hy
                      rcases addPoint_subset hy with rfl | hy2
                      · exact ⟨hrr, hcc⟩
                      · simp [STPOINT_cleanVector] at hy2
                  · rw [hpath1]
                    intro x hx
                    simp only [PATH_clearPath, List.nil_append,
                      List.mem_singleton] at hx
                    subst hx
                    refine addPoint_mem_self (by simp [STPOINT_cleanVector]) _
                      (Or.inl ?_)
                    simp only [STPOINT_cleanVector, List.length_nil]
                    have h2 := hwf.2.1
                    have h1 := hwf.1
                    omega
              have hpost := backtracking_post m pathLength none hwf
                (pathLength + 1) _ hinv1
              split
              · rename_i k heqR
                rw [heqR] at hpost
                exact absurd hsq hpost
              · exact trivial
              · rename_i st2 heqR
                rw [heqR] at hpost
                obtain ⟨⟨_, _, _, hcont2, hbou2, hnd2, _⟩, hlen2, _⟩ := hpost
                exact ⟨hlen2 rfl, hcont2, hbou2, hnd2⟩
              · rename_i st2 heqR
                rw [heqR] at hpost
                obtain ⟨⟨hsize2, _, _, _, _, _, v2, hv2, hvinv2, _⟩, _, _⟩ :=
                  hpost
                exact ih _ _ _ draws2 hsize2 ⟨v2, hv2, hvinv2.2.1⟩

/-- The sequential engine entry on a square well-formed grid with an
admissible target length: the run never aborts and any found path is
valid. -/
theorem findPathSingleThread_post (m : WorldMatrix) (pathLength : Nat)
    (draws : List Nat) (hwf : GridWF m) (hsq : m.rows = m.cols)
    (hL : 0 < pathLength) (hL75 : 4 * pathLength ≤ 3 * m.worldSize) :
    FindPost m pathLength
      (DFS_internal_findPathSingleThread m pathLength draws) := by
  have hini : PATH_initializePath pathLength m = .ok ⟨pathLength, []⟩ := by
    simp only [PATH_initializePath]
    rw [if_neg (by omega)]
  unfold DFS_internal_findPathSingleThread
  split
  · rename_i k hinit
    rw [hini] at hinit
    cases hinit
  · rename_i path hinit
    rw [hini] at hinit
    injection hinit with hinit
    apply findLoop_post m pathLength hwf hsq hL _ _ _ _ _
      (by rw [← hinit])
    refine ⟨⟨MATRIXWORLD_getSize m, []⟩, ?_, ?_⟩
    · unfold STPOINT_createVector
      rw [if_neg (by unfold MATRIXWORLD_getSize; have := hwf.2.1; omega)]
    · show m.rows * m.cols ≤ MATRIXWORLD_getSize m
      have h1 := hwf.1
      unfold MATRIXWORLD_getSize
      omega

/-- Instrumented entry mirroring `DFS_internal_findPathSingleThread` with
the attempt log. -/
def DFS_internal_findPathSingleThreadLog (m : WorldMatrix) (pathLength : Nat)
    (draws : List Nat) : FindResult × List Cords :=
  let noOfUnblockedElements := MATRIXWORLD_getNoOfUnblockedCells m
  let usedStartingPoints := STPOINT_createVector m
  let visitedPoints := STPOINT_createVector m
  match PATH_initializePath pathLength m with
  | .error k => (.fatal k, [])
  | .ok foundPath =>
    DFS_findLoopLog m pathLength noOfUnblockedElements usedStartingPoints
      visitedPoints foundPath draws []

/-- The ghost attempt log does not influence the search: the logging loop's
result coincides with `DFS_findLoop`. -/
theorem findLoopLog_fst (m : WorldMatrix) (pathLength : Nat) :
    ∀ n used visited path draws log,
      (DFS_findLoopLog m pathLength n used visited path draws log).1 =
        DFS_findLoop m pathLength n used visited path draws := by
  intro n
  induction n with
  | zero => intro used visited path draws log; rfl
  | succ n ih =>
    intro used visited path draws log
    simp only [DFS_findLoopLog, DFS_findLoop]
    split
    · rfl
    · rename_i r draws1 hg1
      split
      · rfl
      · rename_i c draws2 hg2
        split
        · exact ih _ _ _ _ _
        · split
          · rfl
          · exact ih _ _ _ _ _
          · split
            · rfl
            · rename_i path1 heqA
              split
              · rfl
              · rfl
              · rfl
              · exact ih _ _ _ _ _

/-- Starting points logged by `DFS_findLoopLog` are pairwise distinct,
in bounds and unblocked: each draw that passes the used-set and
blocked-cell screens is recorded in the used vector before the next
iteration, so it can never be retried. -/
theorem findLoopLog_origins (m : WorldMatrix) (pathLength : Nat) :
    ∀ n (u : StartingPointVector) visited path draws log,
      VecInv m u →
      log.Nodup →
      (∀ o ∈ log, o ∈ u.points) →
      (∀ o ∈ log, o.row < m.rows ∧ o.col < m.cols ∧
        m.world.getD (o.row * m.cols + o.col) false = false) →
      (DFS_findLoopLog m pathLength n (some u) visited path draws log).2.Nodup ∧
      ∀ o ∈ (DFS_findLoopLog m pathLength n (some u) visited path draws
          log).2,
        o.row < m.rows ∧ o.col < m.cols ∧
        m.world.getD (o.row * m.cols + o.col) false = false := by
  intro n
  induction n with
  | zero =>
    intro u visited path draws log hvinv hnd hsubu hor
    exact ⟨hnd, hor⟩
  | succ n ih =>
    intro u visited path draws log hvinv hnd hsubu hor
    simp only [DFS_findLoopLog]
    split
    · exact ⟨hnd, hor⟩
    · rename_i r draws1 hg1
      split
      · exact ⟨hnd, hor⟩
      · rename_i c draws2 hg2
        split
        · exact ih u _ _ _ _ hvinv hnd hsubu hor
        · rename_i hcont
          split
          · exact ⟨hnd, hor⟩
          · exact ih u _ _ _ _ hvinv hnd hsubu hor
          · rename_i heqB
            obtain ⟨hr, hc, hfree⟩ := isBlocked_ok heqB
            have hnotmem : (⟨r, c⟩ : Cords) ∉ u.points := fun hmem =>
              hcont (containsPoint_complete hvinv.1 hmem)
            have hnotlog : (⟨r, c⟩ : Cords) ∉ log := fun h =>
              hnotmem (hsubu _ h)
            have hnd2 : (log ++ [(⟨r, c⟩ : Cords)]).Nodup := by
              rw [List.nodup_append]
              refine ⟨hnd, List.nodup_singleton _, ?_⟩
              intro a ha hb
              rw [List.mem_singleton] at hb
              exact hnotlog (hb ▸ ha)
            have hor2 : ∀ o ∈ log ++ [(⟨r, c⟩ : Cords)],
                o.row < m.rows ∧ o.col < m.cols ∧
                m.world.getD (o.row * m.cols + o.col) false = false := by
              intro o ho
              rcases List.mem_append.mp ho with h | h
              · exact hor o h
              · rw [List.mem_singleton] at h
                subst h
                exact ⟨hr, hc, hfree⟩
            split
            · exact ⟨hnd2, hor2⟩
            · rename_i path1 heqA
              split
              · exact ⟨hnd2, hor2⟩
              · exact ⟨hnd2, hor2⟩
              · exact ⟨hnd2, hor2⟩
              · rename_i st2 heqR
                have hvinv2 : VecInv m (STPOINT_addPoint u ⟨r, c⟩) := by
                  refine ⟨addPoint_sorted hvinv.1 _, ?_, ?_⟩
                  · rw [addPoint_capacity]
                    exact hvinv.2.1
                  · intro y hy
                    rcases addPoint_subset hy with rfl | h
                    · exact ⟨hr, hc⟩
                    · exact hvinv.2.2 y h
                have hroom : u.points.length < u.capacity := by
                  have h1 : u.points.length < m.rows * m.cols :=
                    length_lt_of_not_mem hvinv.1.nodup
                      (fun y hy => hvinv.2.2 y hy) hnotmem hr hc
                  have h2 := hvinv.2.1
                  omega
                have hsubu2 : ∀ o ∈ log ++ [(⟨r, c⟩ : Cords)],
                    o ∈ (STPOINT_addPoint u ⟨r, c⟩).points := by
                  intro o ho
                  rcases List.mem_append.mp ho with h | h
                  · exact addPoint_mem_mono (hsubu o h) _
                  · rw [List.mem_singleton] at h
                    subst h
                    exact addPoint_mem_self hvinv.1 _ (Or.inl hroom)
                exact ih (STPOINT_addPoint u ⟨r, c⟩) st2.visited st2.path
                  draws2 (log ++ [⟨r, c⟩]) hvinv2 hnd2 hsubu2 hor2

/-- The unblocked cells of a grid, as a finite set. -/
def unblockedCells (m : WorldMatrix) : Finset Cords :=
  (cellFinset m.rows m.cols).filter
    (fun c => m.world.getD (c.row * m.cols + c.col) false = false)

/-- A duplicate-free list of in-bounds unblocked coordinates has at most
one entry per unblocked cell. -/
theorem length_le_card_unblocked {m : WorldMatrix} {l : List Cords}
    (hnd : l.Nodup)
    (h : ∀ o ∈ l, o.row < m.rows ∧ o.col < m.cols ∧
      m.world.getD (o.row * m.cols + o.col) false = false) :
    l.length ≤ (unblockedCells m).card := by
  have hsub : l.toFinset ⊆ unblockedCells m := by
    intro y hy
    rw [List.mem_toFinset] at hy
    obtain ⟨h1, h2, h3⟩ := h y hy
    unfold unblockedCells
    rw [Finset.mem_filter]
    exact ⟨mem_cellFinset.mpr ⟨h1, h2⟩, h3⟩
  have hcard := Finset.card_le_card hsub
  rw [List.toFinset_card_of_nodup hnd] at hcard
  exact hcard

/-- The instrumented entry agrees with the real one on the search result. -/
theorem findPathSingleThreadLog_fst (m : WorldMatrix) (pathLength : Nat)
    (draws : List Nat) :
    (DFS_internal_findPathSingleThreadLog m pathLength draws).1 =
      DFS_internal_findPathSingleThread m pathLength draws := by
  unfold DFS_internal_findPathSingleThreadLog DFS_internal_findPathSingleThread
  split
  · rfl
  · exact findLoopLog_fst m pathLength _ _ _ _ _ _

/-- The attempt log of a full sequential run is duplicate-free and made of
in-bounds unblocked starting points. -/
theorem findPathSingleThreadLog_origins (m : WorldMatrix) (pathLength : Nat)
    (draws : List Nat) (hwf : GridWF m) :
    (DFS_internal_findPathSingleThreadLog m pathLength draws).2.Nodup ∧
    ∀ o ∈ (DFS_internal_findPathSingleThreadLog m pathLength draws).2,
      o.row < m.rows ∧ o.col < m.cols ∧
      m.world.getD (o.row * m.cols + o.col) false = false := by
  have hcv : STPOINT_createVector m = some ⟨MATRIXWORLD_getSize m, []⟩ := by
    unfold STPOINT_createVector
    rw [if_neg (by unfold MATRIXWORLD_getSize; have := hwf.2.1; omega)]
  unfold DFS_internal_findPathSingleThreadLog
  split
  · exact ⟨List.nodup_nil, by intro o ho; cases ho⟩
  · rw [hcv]
    refine findLoopLog_origins m pathLength _ _ _ _ _ _
      ⟨List.sorted_nil, ?_, ?_⟩ List.nodup_nil ?_ ?_
    · show m.rows * m.cols ≤ MATRIXWORLD_getSize m
      have h1 := hwf.1
      unfold MATRIXWORLD_getSize
      omega
    · intro y hy
      cases hy
    · intro o ho
      cases ho
    · intro o ho
      cases ho

/-- On a non-square grid the claimed postcondition fails outright: on a
fresh 2x5 grid the swapped dimension bounds admit the draw (4, 0) as a
starting point and the sequential search aborts with the fatal
out-of-bounds error instead of returning found/not-found. -/
theorem findPath_oob_counterexample :
    (MATRIXWORLD_matrixInitialization 2 5).map
      (fun m => DFS_internal_findPathSingleThread m 2 [4, 0]) =
      .ok (.fatal .outOfBounds) := by decide

/-- C4: on a SQUARE well-formed grid with `0 < pathLength` within the 75%
bound, the sequential search never hits a fatal abort, any found path has
exactly `pathLength` in-bounds unblocked pairwise-distinct coordinates and
is contiguous, and the restart attempts use pairwise-distinct in-bounds
unblocked starting points — hence at most one attempt per unblocked cell.
(The square restriction is forced by the swapped dimension bounds; see
`findPath_oob_counterexample`.) -/
theorem dfs_sequential_postcondition (m : WorldMatrix) (pathLength : Nat)
    (draws : List Nat) (hwf : GridWF m) (hsq : m.rows = m.cols)
    (hL : 0 < pathLength) (hL75 : 4 * pathLength ≤ 3 * m.worldSize) :
    (∀ k, DFS_internal_findPathSingleThread m pathLength draws ≠
      .fatal k) ∧
    (∀ p, DFS_internal_findPathSingleThread m pathLength draws = .found p →
      PathValid m pathLength p) ∧
    (DFS_internal_findPathSingleThreadLog m pathLength draws).1 =
      DFS_internal_findPathSingleThread m pathLength draws ∧
    (DFS_internal_findPathSingleThreadLog m pathLength draws).2.Nodup ∧
    (∀ o ∈ (DFS_internal_findPathSingleThreadLog m pathLength draws).2,
      o.row < m.rows ∧ o.col < m.cols ∧
      m.world.getD (o.row * m.cols + o.col) false = false) ∧
    (DFS_internal_findPathSingleThreadLog m pathLength draws).2.length ≤
      (unblockedCells m).card := by
  have hpost := findPathSingleThread_post m pathLength draws hwf hsq hL hL75
  have horig := findPathSingleThreadLog_origins m pathLength draws hwf
  refine ⟨?_, ?_, findPathSingleThreadLog_fst m pathLength draws,
    horig.1, horig.2, length_le_card_unblocked horig.1 horig.2⟩
  · intro k hk
    rw [hk] at hpost
    exact hpost
  · intro p hp
    rw [hp] at hpost
    exact hpost

/-- Concrete instantiation: on the fresh 2x2 grid with target length 3 and
draws [0, 0] the search succeeds, and the theorem yields validity of any
found path; the run indeed finds (0,0)-(0,1)-(1,1). -/
theorem dfs_sequential_postcondition_witness :
    PathValid ⟨2, 2, 4, 0, 4, [false, false, false, false]⟩ 3
      ⟨3, [⟨0, 0⟩, ⟨0, 1⟩, ⟨1, 1⟩]⟩ :=
  (dfs_sequential_postcondition ⟨2, 2, 4, 0, 4, [false, false, false, false]⟩
      3 [0, 0] ⟨rfl, by decide, by decide, by decide⟩ rfl (by decide)
      (by decide)).2.1 _ (by decide)

/-- Once the completion flag is raised, later critical-section entries
leave the shared state untouched. -/
theorem foldl_publish_found :
    ∀ (evs : List PubEvent) (s : PubState), s.isPathFound = true →
      evs.foldl DFS_publishStep s = s := by
  intro evs
  induction evs with
  | nil => intro s h; rfl
  | cons e t ih =>
    intro s h
    rw [List.foldl_cons, show DFS_publishStep s e = s from by
      unfold DFS_publishStep; rw [if_pos h]]
    exact ih s h

/-- First publisher wins: the shared slot ends up holding exactly the path
of the first critical-section entry (and stays empty if there is none). -/
theorem runPublications_head (evs : List PubEvent) :
    (DFS_runPublications evs).slot = evs.head?.map PubEvent.path := by
  cases evs with
  | nil => rfl
  | cons e t =>
    unfold DFS_runPublications
    rw [List.foldl_cons,
      show DFS_publishStep ⟨false, none⟩ e = ⟨true, some e.path⟩ from rfl,
      foldl_publish_found t _ rfl]
    rfl

/-- The head of a list is one of its members. -/
theorem head_mem_of_head_eq {α : Type} {l : List α} {e : α}
    (h : l.head? = some e) : e ∈ l := by
  cases l with
  | nil => cases h
  | cons a t =>
    injection h with h
    rw [← h]
    exact List.mem_cons_self a t

/-- The first entry of a mutex serialisation is the first entry of one of
the participating workers. -/
theorem merge_head {ls : List (List PubEvent)} {e : PubEvent}
    {out : List PubEvent} (h : Merge ls (e :: out)) :
    ∃ l ∈ ls, l.head? = some e := by
  cases h with
  | step ls i e l out hget hrest =>
    exact ⟨e :: l, List.get?_mem hget, rfl⟩

/-- A worker's first critical-section entry either carries a genuinely
successful backtracking verdict — in which case its path is valid — or was
triggered purely by seeing the completion flag.  The hypotheses on the
accumulator make the statement inductive: before any entry the worker still
owns a healthy visited vector and a path buffer of the requested size. -/
theorem workerLoop_first_event (m : WorldMatrix) (pathLength : Nat)
    (fs us : Nat → Bool) (hwf : GridWF m) (hL : 0 < pathLength) :
    ∀ n visited path draws flagIdx lockIdx evs,
      (evs = [] → path.pathSize = pathLength ∧
        ∃ v, visited = some v ∧ m.rows * m.cols ≤ v.capacity) →
      (∀ e, evs.head? = some e → e.sawFlag = false →
        e.success = true ∧ PathValid m pathLength e.path) →
      ∀ e, (DFS_workerLoop m pathLength fs us n visited path draws flagIdx
          lockIdx evs).events.head? = some e →
        e.sawFlag = false →
        e.success = true ∧ PathValid m pathLength e.path := by
  intro n
  induction n with
  | zero => intro visited path draws flagIdx lockIdx evs H1 H2; exact H2
  | succ n ih =>
    intro visited path draws flagIdx lockIdx evs H1 H2
    simp only [DFS_workerLoop]
    split
    · exact H2
    · rename_i r draws1 hg1
      split
      · exact H2
      · rename_i c draws2 hg2
        split
        · split
          · exact H2
          · refine ih _ _ _ _ _ evs ?_ H2
            intro h
            obtain ⟨hsz, v, hv, hcap⟩ := H1 h
            exact ⟨hsz, STPOINT_cleanVector v, by rw [hv]; rfl, hcap⟩
          · rename_i heqB
            obtain ⟨hrr, hcc, hub⟩ := isBlocked_ok heqB
            split
            · exact H2
            · split
              · exact H2
              · rename_i path1 heqA
                obtain ⟨_, hpath1⟩ := addCoordinates_ok heqA
                have hmk : ∀ v, path.pathSize = pathLength →
                    visited = some v → m.rows * m.cols ≤ v.capacity →
                    AttemptInv m pathLength
                      ⟨path1, STPOINT_addPointO
                        (STPOINT_cleanVectorO visited) ⟨r, c⟩,
                        flagIdx + 1⟩ := by
                  intro v hsz hv hcap
                  refine ⟨by rw [hpath1]; exact hsz, by rw [hpath1]; simp,
                    ?_, ?_, ?_, ?_, ?_⟩
                  · rw [hpath1]
                    simp only [PATH_clearPath, List.nil_append,
                      List.length_singleton]
                    omega
                  · unfold PATH_isContiguous
                    rw [hpath1]
                    rfl
                  · rw [hpath1]
                    intro x hx
                    simp only [PATH_clearPath, List.nil_append,
                      List.mem_singleton] at hx
                    subst hx
                    exact ⟨hrr, hcc, hub⟩
                  · rw [hpath1]
                    simp [PATH_clearPath]
                  · refine ⟨STPOINT_addPoint (STPOINT_cleanVector v) ⟨r, c⟩,
                      by rw [hv]; rfl, ?_, ?_⟩
                    · refine ⟨addPoint_sorted
                          (by simp [STPOINT_cleanVector]) _, ?_, ?_⟩
                      · rw [addPoint_capacity]
                        exact hcap
                      · intro y hy
                        rcases addPoint_subset hy with rfl | hy2
                        · exact ⟨hrr, hcc⟩
                        · simp [STPOINT_cleanVector] at hy2
                    · rw [hpath1]
                      intro x hx
                      simp only [PATH_clearPath, List.nil_append,
                        List.mem_singleton] at hx
                      subst hx
                      refine addPoint_mem_self
                        (by simp [STPOINT_cleanVector]) _ (Or.inl ?_)
                      simp only [STPOINT_cleanVector, List.length_nil]
                      have h2 := hwf.2.1
                      have h1 := hwf.1
                      omega
                split
                · exact H2
                · exact H2
                · rename_i st heqR
                  cases evs with
                  | nil =>
                    obtain ⟨hsz, v, hv, hcap⟩ := H1 rfl
                    have hpost := backtracking_post m pathLength (some fs)
                      hwf (pathLength + 1) _ (hmk v hsz hv hcap)
                    rw [heqR] at hpost
                    obtain ⟨⟨_, _, _, hcont2, hbou2, hnd2, _⟩, hlen2, _⟩ :=
                      hpost
                    refine ih _ _ _ _ _ _ (fun h => absurd h (by simp)) ?_
                    intro e he hsaw
                    simp only [List.nil_append, List.head?_cons] at he
                    injection he with he
                    subst he
                    exact ⟨rfl, hlen2 rfl, hcont2, hbou2, hnd2⟩
                  | cons a t =>
                    refine ih _ _ _ _ _ _ (fun h => absurd h (by simp)) ?_
                    intro e he
                    rw [List.cons_append, List.head?_cons] at he
                    exact H2 e he
                · rename_i st heqR
                  split
                  · cases evs with
                    | nil =>
                      refine ih _ _ _ _ _ _ (fun h => absurd h (by simp)) ?_
                      intro e he hsaw
                      simp only [List.nil_append, List.head?_cons] at he
                      injection he with he
                      subst he
                      cases hsaw
                    | cons a t =>
                      refine ih _ _ _ _ _ _ (fun h => absurd h (by simp)) ?_
                      intro e he
                      rw [List.cons_append, List.head?_cons] at he
                      exact H2 e he
                  · refine ih _ _ _ _ _ evs ?_ H2
                    intro h
                    obtain ⟨hsz, v, hv, hcap⟩ := H1 h
                    have hpost := backtracking_post m pathLength (some fs)
                      hwf (pathLength + 1) _ (hmk v hsz hv hcap)
                    rw [heqR] at hpost
                    obtain ⟨⟨hsize2, _, _, _, _, _, v2, hv2, hvinv2, _⟩,
                      _, _⟩ := hpost
                    exact ⟨hsize2, v2, hv2, hvinv2.2.1⟩
        · refine ih _ _ _ _ _ evs ?_ H2
          intro h
          obtain ⟨hsz, v, hv, hcap⟩ := H1 h
          exact ⟨hsz, STPOINT_cleanVector v, by rw [hv]; rfl, hcap⟩

/-- First-entry guarantee lifted to a full worker run: the worker searches
for the `uint16_t`-truncated target length. -/
theorem findPathThreaded_first_event (m : WorldMatrix) (pathLength : Nat)
    (fs us : Nat → Bool) (draws : List Nat) (hwf : GridWF m)
    (hL : 0 < pathLength % 65536) :
    ∀ e, (DFS_findPathThreaded m pathLength fs us draws).events.head? =
        some e →
      e.sawFlag = false →
      e.success = true ∧ PathValid m (pathLength % 65536) e.path := by
  have hcv : STPOINT_createVector m = some ⟨MATRIXWORLD_getSize m, []⟩ := by
    unfold STPOINT_createVector
    rw [if_neg (by unfold MATRIXWORLD_getSize; have := hwf.2.1; omega)]
  simp only [DFS_findPathThreaded]
  split
  · intro e he
    cases he
  · rename_i foundPath heq
    have hsz : foundPath.pathSize = pathLength % 65536 := by
      simp only [PATH_initializePath] at heq
      split_ifs at heq
      injection heq with heq
      rw [← heq]
    refine workerLoop_first_event m (pathLength % 65536) fs us hwf hL _ _ _ _
      _ _ [] ?_ ?_
    · intro h
      refine ⟨hsz, ⟨MATRIXWORLD_getSize m, []⟩, hcv, ?_⟩
      show m.rows * m.cols ≤ MATRIXWORLD_getSize m
      have h1 := hwf.1
      unfold MATRIXWORLD_getSize
      omega
    · intro e he
      cases he

/-- C8 (amended): however the completion mutex serialises the workers'
critical-section entries, the shared result slot is written only while the
completion flag is still false and ends up holding exactly the first
entrant's path (all later finishers are discarded); and since the flag
starts false, the first entrant cannot have been let in by a raised flag,
so its backtracking verdict was a genuine success and the published path
passes all sequential validity checks — for the `uint16_t`-truncated
target `pathLength % 2 ^ 16` the workers actually receive (equal to the
request exactly when it is below 65536): that truncated length,
contiguity, in-bounds unblocked cells, no duplicates. -/
theorem parallel_single_winner (m : WorldMatrix) (pathLength : Nat)
    (hwf : GridWF m) (hL : 0 < pathLength % 65536) (ws : List WorkerOut)
    (hws : ∀ w ∈ ws, ∃ fs us draws,
      w = DFS_findPathThreaded m pathLength fs us draws)
    (evs : List PubEvent)
    (hm : Merge (ws.map WorkerOut.events) evs)
    (hfirst : ∀ e, evs.head? = some e → e.sawFlag = false) :
    (DFS_runPublications evs).slot = evs.head?.map PubEvent.path ∧
    ∀ p, (DFS_runPublications evs).slot = some p →
      PathValid m (pathLength % 65536) p := by
  refine ⟨runPublications_head evs, ?_⟩
  intro p hp
  rw [runPublications_head evs] at hp
  cases hevs : evs with
  | nil =>
    rw [hevs] at hp
    cases hp
  | cons e out =>
    rw [hevs] at hp
    rw [show ((e :: out).head?).map PubEvent.path = some e.path from rfl]
      at hp
    injection hp with hp
    rw [hevs] at hm
    obtain ⟨l, hlmem, hlhead⟩ := merge_head hm
    obtain ⟨w, hwmem, hwl⟩ := List.mem_map.mp hlmem
    obtain ⟨fs, us, draws, hw⟩ := hws w hwmem
    have hsaw : e.sawFlag = false := hfirst e (by rw [hevs, List.head?_cons])
    have hval := findPathThreaded_first_event m pathLength fs us draws hwf
      hL e (by rw [← hw, hwl]; exact hlhead) hsaw
    rw [← hp]
    exact hval.2

/-- Concrete instantiation: one worker on the fresh 2x2 grid (target
length 3, draws [0, 0], flag never seen raised, start always accepted)
publishes the path (0,0)-(0,1)-(1,1); the serialised publication indeed
puts that path in the slot and it is valid. -/
theorem parallel_single_winner_witness :
    (DFS_runPublications
      [⟨true, false, ⟨3, [⟨0, 0⟩, ⟨0, 1⟩, ⟨1, 1⟩]⟩⟩]).slot =
      some ⟨3, [⟨0, 0⟩, ⟨0, 1⟩, ⟨1, 1⟩]⟩ ∧
    PathValid ⟨2, 2, 4, 0, 4, [false, false, false, false]⟩ 3
      ⟨3, [⟨0, 0⟩, ⟨0, 1⟩, ⟨1, 1⟩]⟩ := by
  have h := parallel_single_winner
    ⟨2, 2, 4, 0, 4, [false, false, false, false]⟩ 3
    ⟨rfl, by decide, by decide, by decide⟩ (by decide)
    [DFS_findPathThreaded ⟨2, 2, 4, 0, 4, [false, false, false, false]⟩ 3
      (fun _ => false) (fun _ => true) [0, 0]]
    (by
      intro w hw
      rw [List.mem_singleton] at hw
      exact ⟨_, _, _, hw⟩)
    [⟨true, false, ⟨3, [⟨0, 0⟩, ⟨0, 1⟩, ⟨1, 1⟩]⟩⟩]
    (Merge.step _ 0 ⟨true, false, ⟨3, [⟨0, 0⟩, ⟨0, 1⟩, ⟨1, 1⟩]⟩⟩ [] []
      (by decide) (Merge.nil _ (by decide)))
    (by
      intro e he
      injection he with he
      rw [← he])
  exact ⟨h.1.trans rfl, h.2 _ (h.1.trans rfl)⟩

/-- The original claim's "exactly the requested length" fails for requests
of 65536 or more: requesting 65539 coordinates on a fresh 2x2 grid makes
the worker search for the truncated target 65539 mod 2 ^ 16 = 3, and the
published path has 3 coordinates, not 65539. -/
theorem parallel_truncation_counterexample :
    ((DFS_runPublications
        (DFS_findPathThreaded ⟨2, 2, 4, 0, 4,
            [false, false, false, false]⟩ 65539 (fun _ => false)
          (fun _ => true) [0, 0]).events).slot).map
      (fun p => p.cords.length) = some 3 ∧ (3 : Nat) ≠ 65539 := by decide
